import Mathlib

/-!
Verification development for the Warren fractal-tree content loader
(`src/loader/loader.js`, `src/loader/video-loader.js`,
`src/extension/lib/site-loader.js`).

The JavaScript loader is shallowly embedded as pure Lean functions:

* byte strings are `List Nat`;
* the network is an explicit deterministic environment `Env`: `payload`
  gives the true byte content behind every 20-byte address, and the
  Boolean oracles `readFails` / `aggFails` / `slotFails` say which RPC
  attempt fails transiently.  An attempt is identified by the address (for
  single reads), an *occasion* number (the call site: 0 for discovery,
  the batch index for the batch phase, the round number for retry
  rounds), and the attempt index inside one `fetchChunkData` call;
* `await`-style delays and RPC attempts are recorded in an event trace
  (`Ev`), so scheduling claims (backoff values, round waits, attempt
  counts) are statements about the trace;
* fallible code returns `Except String`; a thrown JS exception is the
  `.error` case.

Addresses are the raw 20-byte slices produced by the branch-node parser
(`data.slice(i, i + 20)` / `toHex` in the source); the hex rendering is a
bijection and is dropped.
-/

namespace Warren

/-- Byte strings (`Uint8Array` in the source). -/
abbrev Bytes := List Nat

/-- Observable events of one load: every RPC attempt and every
`setTimeout` delay, tagged by the call site in the source. -/
inductive Ev where
  /-- one `client.readContract` attempt inside `fetchChunkData`
      (attempt `i` for address `a` at occasion `occ`). -/
  | readAttempt (a : Bytes) (occ i : Nat)
  /-- the backoff `setTimeout` between two `fetchChunkData` attempts. -/
  | readBackoff (ms : Nat)
  /-- one `aggregate3` multicall attempt inside `fetchChunksBatch`. -/
  | aggAttempt (occ i : Nat)
  /-- the backoff `setTimeout` between two multicall attempts. -/
  | aggBackoff (ms : Nat)
  /-- the 100 ms pause between consecutive batches (loader.js:410). -/
  | groupWait (ms : Nat)
  /-- the `500 * retryRound` wait before a retry round (loader.js:443). -/
  | roundWait (ms : Nat)
  /-- the 100 ms pause after each leaf inside a retry round (loader.js:458). -/
  | leafWait (ms : Nat)
  /-- the `log(...chunks permanently failed)` call (loader.js:467). -/
  | logPermanentFailures (n : Nat)
deriving DecidableEq, Repr

/-- The deterministic network environment: the content behind each
address plus a schedule of transient failures. -/
structure Env where
  /-- true byte content stored at an address (`Page.read()`). -/
  payload : Bytes → Bytes
  /-- `readFails a occ i = true` iff attempt `i` of a single read of `a`
      at call-site occasion `occ` throws. -/
  readFails : Bytes → Nat → Nat → Bool
  /-- transport-level failure of the whole `aggregate3` call. -/
  aggFails : Nat → Nat → Bool
  /-- per-slot failure inside a successful `aggregate3` response
      (`success = false`, empty `0x` data, or a decode error). -/
  slotFails : Bytes → Nat → Bool

/-- An environment with no transient failures at all. -/
def errFree (env : Env) : Prop :=
  (∀ a occ i, env.readFails a occ i = false) ∧
  (∀ occ i, env.aggFails occ i = false) ∧
  (∀ a occ, env.slotFails a occ = false)

/-- The retry loop of `fetchChunkData` (loader.js:234-249 and
video-loader.js:170-185): attempt `i`, `n` attempts remaining; on failure
of a non-final attempt wait `min (base * 2^i) cap` and retry; the final
failure rethrows.  (`n = 0` cannot be reached from a positive budget;
in JS the loop would fall through returning `undefined`.) -/
def fetchLoop (env : Env) (a : Bytes) (occ base cap : Nat) :
    Nat → Nat → Except String Bytes × List Ev
  | _, 0 => (.error "fetch failed", [])
  | i, n + 1 =>
    if env.readFails a occ i then
      if n = 0 then (.error "fetch failed", [Ev.readAttempt a occ i])
      else
        let r := fetchLoop env a occ base cap (i + 1) n
        (r.1, Ev.readAttempt a occ i :: Ev.readBackoff (min (base * 2 ^ i) cap) :: r.2)
    else (.ok (env.payload a), [Ev.readAttempt a occ i])

/-- `fetchChunkData(address, retries)` of loader.js:234-249: backoff
starts at 200 ms, doubling, capped at 2000 ms. -/
def fetchChunkData (env : Env) (a : Bytes) (occ retries : Nat) :
    Except String Bytes × List Ev :=
  fetchLoop env a occ 200 2000 0 retries

/-- `fetchChunkData(address, retries)` of video-loader.js:170-185: same
loop with backoff base 300 ms capped at 3000 ms. -/
def fetchChunkDataV (env : Env) (a : Bytes) (occ retries : Nat) :
    Except String Bytes × List Ev :=
  fetchLoop env a occ 300 3000 0 retries

/-- Fuel-driven worker for `chunkList` (fuel is always instantiated with
the list length, which bounds the number of loop iterations). -/
def chunkListGo (sz : Nat) {α : Type} : Nat → List α → List (List α)
  | 0, _ => []
  | _, [] => []
  | f + 1, l => l.take sz :: chunkListGo sz f (l.drop sz)

/-- Splitting a list into consecutive blocks of `sz` elements (the last
block may be shorter).  This is the loop pattern
`for (let i = 0; i < data.length; i += sz) push(data.slice(i, i + sz))`
used for 20-byte child addresses (loader.js:341-343), for batching the
leaf list (loader.js:366-367), and — in this development — for splitting
content into fixed-size chunks. -/
def chunkList (sz : Nat) {α : Type} (l : List α) : List (List α) :=
  chunkListGo sz l.length l

/-- The 20-byte-aligned child-address parse of a branch-node payload
(loader.js:340-343). -/
def splitAddrs (data : Bytes) : List Bytes := chunkList 20 data

/-- A leaf descriptor `{index, address}` (loader.js:333). -/
structure Leaf where
  index : Nat
  address : Bytes
deriving DecidableEq, Repr

/-- `traverseNode` inside `collectLeafAddresses` (loader.js:331-354),
with the shared mutable counter `currentIndex` threaded explicitly: at
depth 0 emit `{index: ctr, address}` and increment the counter; at depth
`d+1` read the node payload (`fetchChunkData(address, 3)`, occasion 0),
parse the 20-byte child addresses, and recurse into each child in order,
threading the counter left to right.  A failed node read propagates as
the error of the whole traversal. -/
def traverseNodeCtr (env : Env) : Nat → Bytes → Nat → Except String (List Leaf × Nat)
  | 0, a, ctr => .ok ([⟨ctr, a⟩], ctr + 1)
  | d + 1, a, ctr =>
    match (fetchChunkData env a 0 3).1 with
    | .error e => .error e
    | .ok data =>
      let f := traverseNodeCtr env d
      (splitAddrs data).foldlM (fun acc c => do
        let r ← f c acc.2
        pure (acc.1 ++ r.1, r.2)) (([] : List Leaf), ctr)

/-- `collectLeafAddresses(rootChunk, depth)` (loader.js:327-358). -/
def collectLeafAddresses (env : Env) (rootChunk : Bytes) (depth : Nat) :
    Except String (List Leaf) :=
  (traverseNodeCtr env depth rootChunk 0).map Prod.fst

/-- `fetchChunksIndividually(addresses, retries)` (loader.js:252-263,
video-loader.js:188-199): sequential single reads, each address getting
its own `fetchChunkData` budget; a failed address yields a failure slot
(`none`) instead of aborting.  `base`/`cap` are the backoff constants of
the file's `fetchChunkData` (200/2000 in loader.js, 300/3000 in
video-loader.js). -/
def fetchChunksIndividuallyG (env : Env) (occ retries base cap : Nat) :
    List Bytes → List (Option Bytes) × List Ev
  | [] => ([], [])
  | a :: rest =>
    let r := fetchLoop env a occ base cap 0 retries
    let s := fetchChunksIndividuallyG env occ retries base cap rest
    (r.1.toOption :: s.1, r.2 ++ s.2)

/-- The multicall attempt loop of `fetchChunksBatch` (loader.js:273-323):
attempt `i`, `n` attempts remaining.  A transport-level failure of the
aggregate call on the final attempt falls back to
`fetchChunksIndividually(addresses, retries)`; a non-final failure waits
`min (300 * 2^i) 3000` and retries.  A successful aggregate call yields
one slot per address: the decoded payload, or `none` when the slot is
marked failed / empty / undecodable (`slotFails`). -/
def fetchBatchLoop (env : Env) (addrs : List Bytes) (occ retries base cap : Nat) :
    Nat → Nat → List (Option Bytes) × List Ev
  | _, 0 => ([], [])
  | i, n + 1 =>
    if env.aggFails occ i then
      if n = 0 then
        let r := fetchChunksIndividuallyG env occ retries base cap addrs
        (r.1, Ev.aggAttempt occ i :: r.2)
      else
        let r := fetchBatchLoop env addrs occ retries base cap (i + 1) n
        (r.1, Ev.aggAttempt occ i :: Ev.aggBackoff (min (300 * 2 ^ i) 3000) :: r.2)
    else
      (addrs.map (fun a => if env.slotFails a occ then none else some (env.payload a)),
       [Ev.aggAttempt occ i])

/-- `fetchChunksBatch(addresses, retries)` (loader.js:266-324,
video-loader.js:202-255): when multicall is disabled or the address list
is empty, go straight to sequential individual reads; otherwise run the
aggregate attempt loop. -/
def fetchChunksBatchG (env : Env) (useMulticall : Bool) (occ retries base cap : Nat)
    (addrs : List Bytes) : List (Option Bytes) × List Ev :=
  if ¬useMulticall ∨ addrs = [] then fetchChunksIndividuallyG env occ retries base cap addrs
  else fetchBatchLoop env addrs occ retries base cap 0 retries

/-- loader.js instantiation (its `fetchChunkData` backoff is 200/2000). -/
def fetchChunksBatch (env : Env) (useMulticall : Bool) (occ retries : Nat)
    (addrs : List Bytes) : List (Option Bytes) × List Ev :=
  fetchChunksBatchG env useMulticall occ retries 200 2000 addrs

/-- video-loader.js instantiation (its `fetchChunkData` backoff is 300/3000). -/
def fetchChunksBatchV (env : Env) (useMulticall : Bool) (occ retries : Nat)
    (addrs : List Bytes) : List (Option Bytes) × List Ev :=
  fetchChunksBatchG env useMulticall occ retries 300 3000 addrs

/-- A fetched chunk `{index, data}` (loader.js:386). -/
structure Chunk where
  index : Nat
  data : Bytes
deriving DecidableEq, Repr

/-- Result of the batch-loading phase (loader.js:361-426). -/
structure BatchRes where
  chunks : List Chunk
  failed : List Leaf
  trace : List Ev
deriving Repr

/-- The `results.forEach` of loader.js:383-398: pair each result slot
with the leaf at the same position; successes are pushed to `chunks`,
failures to `failed`, preserving order. -/
def splitResults : List Leaf → List (Option Bytes) → List Chunk × List Leaf
  | [], _ => ([], [])
  | _ :: _, [] => ([], [])
  | l :: ls, r :: rs =>
    let rest := splitResults ls rs
    match r with
    | some d => (⟨l.index, d⟩ :: rest.1, rest.2)
    | none => (rest.1, l :: rest.2)

/-- The per-batch loop of `loadChunksInBatches` (loader.js:366-412),
over the already-sliced batches; `k` is the batch index (used as the
occasion of every RPC of that batch).  Each batch calls
`fetchChunksBatch(batchAddresses, 2)` — note the retry budget 2 passed at
loader.js:376 — and a 100 ms pause separates consecutive batches. -/
def loadBatches (env : Env) (um : Bool) : List (List Leaf) → Nat → BatchRes
  | [], _ => ⟨[], [], []⟩
  | b :: bs, k =>
    let r := fetchChunksBatch env um k 2 (b.map Leaf.address)
    let s := splitResults b r.1
    let rest := loadBatches env um bs (k + 1)
    ⟨s.1 ++ rest.chunks, s.2 ++ rest.failed,
      r.2 ++ (if bs ≠ [] then [Ev.groupWait 100] else []) ++ rest.trace⟩

/-- `loadChunksInBatches(leaves)` (loader.js:361-426).  `bs` is
`BATCH_SIZE` (default 100; every theorem assumes `1 ≤ bs`, as a zero
batch size would not terminate in the source either). -/
def loadChunksInBatches (env : Env) (um : Bool) (bs : Nat) (leaves : List Leaf) :
    BatchRes :=
  loadBatches env um (chunkList bs leaves) 0

/-- State of the retry phase (loader.js:429-469): the collected chunk
list (mutated in place in the source), the queue of still-failed leaves,
and the observable trace. -/
structure RetrySt where
  chunks : List Chunk
  toRetry : List Leaf
  trace : List Ev
deriving Repr

/-- One retry round over the queue (loader.js:445-459): for each leaf a
`fetchChunkData(leaf.address, 3)` at occasion `r` (the round number);
success appends `{index, data}` to `chunks`, failure keeps the leaf in
`stillFailed`; a 100 ms pause follows every leaf. -/
def retryPass (env : Env) (r : Nat) : List Leaf → List Chunk → RetrySt
  | [], chunks => ⟨chunks, [], []⟩
  | l :: rest, chunks =>
    let f := fetchChunkData env l.address r 3
    match f.1 with
    | .ok data =>
      let s := retryPass env r rest (chunks ++ [⟨l.index, data⟩])
      ⟨s.chunks, s.toRetry, f.2 ++ Ev.leafWait 100 :: s.trace⟩
    | .error _ =>
      let s := retryPass env r rest chunks
      ⟨s.chunks, l :: s.toRetry, f.2 ++ Ev.leafWait 100 :: s.trace⟩

/-- The `while (toRetry.length > 0 && retryRound < 5)` loop of
loader.js:436-462: `fuel` is `5 - retryRound`; each executed round `r`
first waits `500 * r`. -/
def retryLoop (env : Env) : Nat → Nat → List Leaf → List Chunk → RetrySt
  | 0, _, toRetry, chunks => ⟨chunks, toRetry, []⟩
  | fuel + 1, round, toRetry, chunks =>
    if toRetry = [] then ⟨chunks, [], []⟩
    else
      let r := round + 1
      let pass := retryPass env r toRetry chunks
      let rest := retryLoop env fuel r pass.toRetry pass.chunks
      ⟨rest.chunks, rest.toRetry, Ev.roundWait (500 * r) :: pass.trace ++ rest.trace⟩

/-- `retryFailedChunks(failed, chunks)` (loader.js:429-469).  Leaves
still failed after the final round are only logged
(`log(...permanently failed)`); the function returns nothing to its
caller in the source — the returned `RetrySt` is the observation of the
mutated `chunks` array, the leftover queue and the trace. -/
def retryFailedChunks (env : Env) (failed : List Leaf) (chunks : List Chunk) : RetrySt :=
  if failed = [] then ⟨chunks, [], []⟩
  else
    let s := retryLoop env 5 0 failed chunks
    ⟨s.chunks, s.toRetry,
      s.trace ++ if s.toRetry ≠ [] then [Ev.logPermanentFailures s.toRetry.length] else []⟩

/-- Insert a chunk behind every chunk of smaller-or-equal index. -/
def insertChunk (c : Chunk) : List Chunk → List Chunk
  | [] => [c]
  | d :: ds => if d.index ≤ c.index then d :: insertChunk c ds else c :: d :: ds

/-- The final `chunks.sort((a, b) => a.index - b.index)` of
loader.js:497: an ascending sort by leaf index, modelled as insertion
sort.  The source's engine sort is stable; on the lists the loader
produces the leaf indices are distinct, where every ascending sort
agrees. -/
def sortChunks : List Chunk → List Chunk
  | [] => []
  | c :: cs => insertChunk c (sortChunks cs)

/-- `fetchTreeSequential(rootChunk, depth, totalSize)`
(loader.js:472-513): discovery, batch loading, retry of failures, then
sort by index and concatenate whatever chunks were collected.  `totalSize`
only feeds the progress UI and is omitted.  Returns the assembled bytes
(or the discovery error) together with the load/retry trace. -/
def fetchTreeSequential (env : Env) (um : Bool) (bs : Nat) (root : Bytes) (depth : Nat) :
    Except String Bytes × List Ev :=
  match collectLeafAddresses env root depth with
  | .error e => (.error e, [])
  | .ok leaves =>
    let b := loadChunksInBatches env um bs leaves
    let r := retryFailedChunks env b.failed b.chunks
    (.ok ((sortChunks r.chunks).map Chunk.data).flatten, b.trace ++ r.trace)

/-! ## The streaming video loader (`src/loader/video-loader.js`) -/

namespace Video

/-- `traverseNode` inside video-loader.js's `collectLeafAddresses`
(video-loader.js:258-287): same walk as the generic loader but leaves
are plain addresses (no index counter) and the node reads use the
video file's `fetchChunkData` (backoff 300/3000). -/
def traverseNodeV (env : Env) : Nat → Bytes → Except String (List Bytes)
  | 0, a => .ok [a]
  | d + 1, a =>
    match (fetchChunkDataV env a 0 3).1 with
    | .error e => .error e
    | .ok data =>
      let f := traverseNodeV env d
      (splitAddrs data).foldlM (fun acc c => do
        let ls ← f c
        pure (acc ++ ls)) ([] : List Bytes)

/-- `collectLeafAddresses(rootChunk, depth)` (video-loader.js:258-287). -/
def collectLeafAddressesV (env : Env) (rootChunk : Bytes) (depth : Nat) :
    Except String (List Bytes) :=
  traverseNodeV env depth rootChunk

/-- A parsed header segment `{type, byteStart, byteEnd}`; the `type`
string only feeds log messages and is omitted. -/
structure Seg where
  byteStart : Nat
  byteEnd : Nat
deriving DecidableEq, Repr

/-- An offset-adjusted segment (video-loader.js:344-351): the original
relative range plus the absolute byte range and the covering chunk index
range. -/
structure AdjSeg where
  byteStart : Nat
  byteEnd : Nat
  adjustedByteStart : Nat
  adjustedByteEnd : Nat
  adjustedChunkStart : Nat
  adjustedChunkEnd : Nat
deriving DecidableEq, Repr

/-- `chunkDataMap` (video-loader.js:118): chunk index to payload. -/
abbrev ChunkMap := Nat → Option Bytes

/-- `adjustSegmentOffsets(segments)` (video-loader.js:342-352): add the
header prefix size `4 + headerLength` to both ends of the relative range;
the covering chunks run from `floor(adjStart / CHUNK_SIZE)` to
`ceil(adjEnd / CHUNK_SIZE)` (exclusive); `Math.ceil (x / csz)` is
`(x + csz - 1) / csz` on naturals. -/
def adjustSegmentOffsets (csz headerLength : Nat) (segs : List Seg) : List AdjSeg :=
  segs.map fun s =>
    { byteStart := s.byteStart
      byteEnd := s.byteEnd
      adjustedByteStart := s.byteStart + (4 + headerLength)
      adjustedByteEnd := s.byteEnd + (4 + headerLength)
      adjustedChunkStart := (s.byteStart + (4 + headerLength)) / csz
      adjustedChunkEnd := (s.byteEnd + (4 + headerLength) + csz - 1) / csz }

/-- `isSegmentComplete(segment)` (video-loader.js:355-360): every chunk
index in `[adjustedChunkStart, adjustedChunkEnd)` is in the map. -/
def isSegmentComplete (m : ChunkMap) (s : AdjSeg) : Bool :=
  (List.range' s.adjustedChunkStart (s.adjustedChunkEnd - s.adjustedChunkStart)).all
    fun i => (m i).isSome

/-- `extractSegmentData(segment)` (video-loader.js:363-387): concatenate
the covering chunks and slice out the exact byte range
(`Uint8Array.slice` clamps, as `drop`/`take` do). -/
def extractSegmentData (m : ChunkMap) (csz headerLength : Nat) (s : AdjSeg) : Bytes :=
  let chunks := (List.range' s.adjustedChunkStart (s.adjustedChunkEnd - s.adjustedChunkStart)).map
    fun i => (m i).getD []
  let firstChunkOffset := s.adjustedChunkStart * csz
  let startInData := s.byteStart + (4 + headerLength) - firstChunkOffset
  let segmentLength := s.byteEnd - s.byteStart
  ((chunks.flatten).drop startInData).take segmentLength

/-- The big-endian `DataView.getUint32(0)` over the first four bytes. -/
def readUint32BE (b : Bytes) : Nat :=
  b.getD 0 0 * 16777216 + b.getD 1 0 * 65536 + b.getD 2 0 * 256 + b.getD 3 0

/-- The header-assembly loop of `parseHeaderFromChunks`
(video-loader.js:314-327): walk chunks `0, 1, …` while fewer than
`headerLength` bytes have been gathered, skipping the 4-byte length
prefix inside chunk 0. -/
def buildHeaderGo (m : ChunkMap) (headerLength : Nat) : Nat → Nat → Nat → Bytes
  | _, 0, _ => []
  | i, f + 1, got =>
    if got < headerLength then
      let chunk := (m i).getD []
      let start := if i = 0 then 4 else 0
      let part := (chunk.drop start).take (headerLength - got)
      part ++ buildHeaderGo m headerLength (i + 1) f (got + part.length)
    else []

/-- The assembled `headerBytes` buffer: gathered bytes, zero-padded to
`headerLength` (the source preallocates a zero-filled `Uint8Array`). -/
def buildHeader (m : ChunkMap) (headerLength chunksNeeded : Nat) : Bytes :=
  let b := buildHeaderGo m headerLength 0 chunksNeeded 0
  b ++ List.replicate (headerLength - b.length) 0

/-- `parseHeaderFromChunks()` (video-loader.js:290-339): needs chunk 0
with at least 4 bytes, reads the big-endian header length, requires every
chunk covering `[0, 4 + headerLength)` to be present, assembles the
header bytes and hands them to the JSON parser.  `JSON.parse` plus the
segment-field decoding is abstracted as the `jsonParse` oracle; any
failure (missing chunks, malformed JSON) yields `none`, as the source
returns `null`. -/
def parseHeaderFromChunks (m : ChunkMap) (csz : Nat) (jsonParse : Bytes → Option (List Seg)) :
    Option (Nat × List Seg) :=
  match m 0 with
  | none => none
  | some chunk0 =>
    if chunk0.length < 4 then none
    else
      let headerLength := readUint32BE chunk0
      let chunksNeeded := (4 + headerLength + csz - 1) / csz
      if (List.range chunksNeeded).all (fun i => (m i).isSome) then
        match jsonParse (buildHeader m headerLength chunksNeeded) with
        | some segs => some (headerLength, segs)
        | none => none
      else none

/-- Observable events of the streaming loop: a chunk arriving in
`chunkDataMap` and a segment being appended to the SourceBuffer. -/
inductive VEv where
  | arrived (i : Nat)
  | appended (i : Nat)
deriving DecidableEq, Repr

/-- State of `streamVideoWithSegments` across batches: the chunk map,
the parsed header (`headerLength` with the adjusted segments, once
available), the `nextSegmentToAppend` cursor, the appended segments in
order, and the event trace. -/
structure StreamSt where
  map : ChunkMap
  parsed : Option (Nat × List AdjSeg)
  next : Nat
  appended : List (Nat × Bytes)
  trace : List VEv

/-- The `results.forEach` of video-loader.js:498-508: store each
successful slot at its chunk index (`i + idx`); failures are only
logged. -/
def storeResults (m : ChunkMap) : Nat → List (Option Bytes) → ChunkMap × List VEv
  | _, [] => (m, [])
  | start, r :: rs =>
    match r with
    | some d =>
      let r' := storeResults (fun j => if j = start then some d else m j) (start + 1) rs
      (r'.1, VEv.arrived start :: r'.2)
    | none => storeResults m (start + 1) rs

/-- The `while (nextSegmentToAppend < adjustedSegments.length)` append
loop (video-loader.js:525-546 and 559-572): release the cursor segment
while it is complete, advancing the cursor; stop at the first incomplete
segment.  `fuel` is instantiated with `segs.length`, an upper bound on
the remaining iterations. -/
def appendLoop (m : ChunkMap) (csz headerLength : Nat) (segs : List AdjSeg) :
    Nat → Nat → List (Nat × Bytes) × List VEv
  | _, 0 => ([], [])
  | next, fuel + 1 =>
    match segs[next]? with
    | none => ([], [])
    | some s =>
      if isSegmentComplete m s then
        let d := extractSegmentData m csz headerLength s
        let rest := appendLoop m csz headerLength segs (next + 1) fuel
        ((next, d) :: rest.1, VEv.appended next :: rest.2)
      else ([], [])

/-- One iteration of the batch loop of `streamVideoWithSegments`
(video-loader.js:489-556): fetch the batch (`fetchChunksBatch(batch, 2)`),
store successful chunks, parse the header if not yet parsed (adjusting
the segment offsets on success), then append complete segments in cursor
order. -/
def streamBatchStep (env : Env) (um : Bool) (csz : Nat)
    (jsonParse : Bytes → Option (List Seg)) (occ start : Nat) (batch : List Bytes)
    (st : StreamSt) : StreamSt :=
  let res := fetchChunksBatchV env um occ 2 batch
  let stored := storeResults st.map start res.1
  let parsed :=
    match st.parsed with
    | some p => some p
    | none =>
      match parseHeaderFromChunks stored.1 csz jsonParse with
      | some (hl, segs) => some (hl, adjustSegmentOffsets csz hl segs)
      | none => none
  let appends :=
    match parsed with
    | none => (([] : List (Nat × Bytes)), ([] : List VEv))
    | some (hl, segs) => appendLoop stored.1 csz hl segs st.next segs.length
  { map := stored.1
    parsed := parsed
    next := st.next + appends.1.length
    appended := st.appended ++ appends.1
    trace := st.trace ++ stored.2 ++ appends.2 }

/-- The batch loop over the already-sliced batches; `occ` is the batch
index and `start` the chunk index of the first leaf of the batch. -/
def streamBatches (env : Env) (um : Bool) (csz : Nat)
    (jsonParse : Bytes → Option (List Seg)) :
    List (List Bytes) → Nat → Nat → StreamSt → StreamSt
  | [], _, _, st => st
  | b :: bs, occ, start, st =>
    streamBatches env um csz jsonParse bs (occ + 1) (start + b.length)
      (streamBatchStep env um csz jsonParse occ start b st)

/-- `streamVideoWithSegments(rootChunk, depth, totalSize, mimeType)`
(video-loader.js:467-588): discover the leaves (a discovery failure
throws out of the function), set up the MediaSource (`setupFails` models
a `setupMediaSource` rejection, the only other `await` that can throw),
run the batch loop, then the final drain loop (video-loader.js:559-572).
Header-parse failures never throw: the function completes with whatever
segments were appended. -/
def streamVideoWithSegments (env : Env) (um : Bool) (bs csz : Nat)
    (jsonParse : Bytes → Option (List Seg)) (setupFails : Bool)
    (root : Bytes) (depth : Nat) : Except String StreamSt :=
  match collectLeafAddressesV env root depth with
  | .error e => .error e
  | .ok leafAddresses =>
    if setupFails then .error "MediaSource setup failed"
    else
      let st0 : StreamSt := ⟨fun _ => none, none, 0, [], []⟩
      let st1 := streamBatches env um csz jsonParse (chunkList bs leafAddresses) 0 0 st0
      let extra :=
        match st1.parsed with
        | none => (([] : List (Nat × Bytes)), ([] : List VEv))
        | some (hl, segs) => appendLoop st1.map csz hl segs st1.next segs.length
      .ok { st1 with
        next := st1.next + extra.1.length
        appended := st1.appended ++ extra.1
        trace := st1.trace ++ extra.2 }

/-- `isRawMP4(data)` (video-loader.js:591-596). -/
def isRawMP4 (data : Bytes) : Bool :=
  decide (8 ≤ data.length) && decide (data.getD 4 0 = 102) && decide (data.getD 5 0 = 116)
    && decide (data.getD 6 0 = 121) && decide (data.getD 7 0 = 112)

/-- The per-batch success collection of `fallbackLoad`
(video-loader.js:626-654): successful chunks land at their index in the
`chunks` array; `chunks.filter(c => c != null)` then keeps them in index
order, silently dropping failures. -/
def fallbackCollect (env : Env) (um : Bool) : List (List Bytes) → Nat → List Bytes
  | [], _ => []
  | b :: bs, occ =>
    (fetchChunksBatchV env um occ 2 b).1.reduceOption ++ fallbackCollect env um bs (occ + 1)

/-- `fallbackLoad(rootChunk, depth, totalSize)` (video-loader.js:616-707):
non-streaming load; assemble the successful chunks, then whole-buffer
header handling — raw MP4 passes through, otherwise a plausible declared
header length (`hdrLen < totalBytes && hdrLen < 10000`) is stripped, and
anything else (including a buffer too short for the 4-byte read, which
throws in the source and is caught) is used raw. -/
def fallbackLoad (env : Env) (um : Bool) (bs : Nat) (root : Bytes) (depth : Nat) :
    Except String Bytes :=
  match collectLeafAddressesV env root depth with
  | .error e => .error e
  | .ok leafAddresses =>
    let finalData := (fallbackCollect env um (chunkList bs leafAddresses) 0).flatten
    if isRawMP4 finalData then .ok finalData
    else if finalData.length < 4 then .ok finalData
    else
      let hdrLen := readUint32BE finalData
      if hdrLen < finalData.length ∧ hdrLen < 10000 then .ok (finalData.drop (4 + hdrLen))
      else .ok finalData

/-- Which path `init()` took for the load. -/
inductive LoadPath where
  /-- segment streaming ran to completion. -/
  | streamed (st : StreamSt)
  /-- streaming threw and the catch fell back (video-loader.js:832-835). -/
  | streamFailedFallback (r : Except String Bytes)
  /-- direct playback: forced raw mode or MediaSource unsupported. -/
  | direct (r : Except String Bytes)

/-- `true` iff the load went through `fallbackLoad`. -/
def LoadPath.usedFallback : LoadPath → Bool
  | .streamed _ => false
  | _ => true

/-- The appended segments of a streamed load (empty otherwise). -/
def LoadPath.streamedSegments : LoadPath → List (Nat × Bytes)
  | .streamed st => st.appended
  | _ => []

/-- The parsed header length of a streamed load: `some none` means the
stream completed with the header never parsed. -/
def LoadPath.streamedHeader : LoadPath → Option (Option Nat)
  | .streamed st => some (st.parsed.map Prod.fst)
  | _ => none

/-- The dispatch of `init()` (video-loader.js:799-840): forced raw mode
or an unsupported MediaSource go straight to `fallbackLoad`; otherwise
streaming is tried, and only a thrown error falls back. -/
def initVideo (env : Env) (um : Bool) (bs csz : Nat)
    (jsonParse : Bytes → Option (List Seg)) (forceRaw msSupported setupFails : Bool)
    (root : Bytes) (depth : Nat) : LoadPath :=
  if forceRaw then .direct (fallbackLoad env um bs root depth)
  else if msSupported then
    match streamVideoWithSegments env um bs csz jsonParse setupFails root depth with
    | .ok st => .streamed st
    | .error _ => .streamFailedFallback (fallbackLoad env um bs root depth)
  else .direct (fallbackLoad env um bs root depth)

end Video

/-! ## Lemmas about `chunkList` -/

theorem chunkListGo_nil {α : Type} (sz f : Nat) : chunkListGo sz f ([] : List α) = [] := by
  cases f <;> rfl

theorem chunkListGo_congr {α : Type} (sz : Nat) (hsz : 0 < sz) :
    ∀ (f₁ : Nat) (f₂ : Nat) (l : List α), l.length ≤ f₁ → l.length ≤ f₂ →
      chunkListGo sz f₁ l = chunkListGo sz f₂ l := by
  intro f₁
  induction f₁ with
  | zero =>
    intro f₂ l h1 _
    have : l = [] := List.eq_nil_of_length_eq_zero (Nat.le_zero.mp h1)
    subst this
    simp [chunkListGo_nil]
  | succ f ih =>
    intro f₂ l h1 h2
    cases l with
    | nil => simp [chunkListGo_nil]
    | cons a as =>
      cases f₂ with
      | zero => simp at h2
      | succ g =>
        show (a :: as).take sz :: chunkListGo sz f ((a :: as).drop sz)
            = (a :: as).take sz :: chunkListGo sz g ((a :: as).drop sz)
        have hd : ((a :: as).drop sz).length = (a :: as).length - sz := by
          simp [List.length_drop]
        have hf : ((a :: as).drop sz).length ≤ f := by
          simp only [hd, List.length_cons] at *
          omega
        have hg : ((a :: as).drop sz).length ≤ g := by
          simp only [hd, List.length_cons] at *
          omega
        rw [ih _ _ hf hg]

theorem chunkList_nil {α : Type} (sz : Nat) : chunkList sz ([] : List α) = [] := rfl

theorem chunkList_ne_nil (sz : Nat) (hsz : 0 < sz) {α : Type} (l : List α) (h : l ≠ []) :
    chunkList sz l = l.take sz :: chunkList sz (l.drop sz) := by
  cases l with
  | nil => exact absurd rfl h
  | cons a as =>
    show chunkListGo sz (a :: as).length (a :: as) = _
    rw [show (a :: as).length = as.length + 1 from rfl]
    show (a :: as).take sz :: chunkListGo sz as.length ((a :: as).drop sz) = _
    unfold chunkList
    congr 1
    apply chunkListGo_congr sz hsz
    · simp [List.length_drop]; omega
    · exact Nat.le_refl _

theorem flatten_chunkList {α : Type} (sz : Nat) (hsz : 0 < sz) (l : List α) :
    (chunkList sz l).flatten = l := by
  have main : ∀ (f : Nat) (l : List α), l.length ≤ f → (chunkListGo sz f l).flatten = l := by
    intro f
    induction f with
    | zero =>
      intro l h
      have : l = [] := List.eq_nil_of_length_eq_zero (Nat.le_zero.mp h)
      subst this; rfl
    | succ f ih =>
      intro l h
      cases l with
      | nil => rfl
      | cons a as =>
        show (((a :: as).take sz) :: chunkListGo sz f ((a :: as).drop sz)).flatten = a :: as
        rw [List.flatten_cons, ih _ (by simp [List.length_drop] at *; omega)]
        exact List.take_append_drop sz (a :: as)
  exact main _ l (Nat.le_refl _)

theorem chunkList_of_blocks (sz : Nat) (hsz : 0 < sz) {α : Type} :
    ∀ (bs : List (List α)), (∀ b ∈ bs, b.length = sz) → chunkList sz bs.flatten = bs := by
  intro bs
  induction bs with
  | nil => intro _; rfl
  | cons b bs ih =>
    intro h
    have hb : b.length = sz := h b (List.mem_cons_self _ _)
    have hbne : (b :: bs).flatten ≠ [] := by
      rw [List.flatten_cons]
      intro hc
      rcases List.append_eq_nil.mp hc with ⟨h1, _⟩
      rw [h1] at hb
      simp at hb
      omega
    rw [List.flatten_cons, chunkList_ne_nil sz hsz _ (by rw [← List.flatten_cons]; exact hbne)]
    congr 1
    · exact List.take_left' hb
    · rw [List.drop_left' hb]
      exact ih (fun x hx => h x (List.mem_cons_of_mem _ hx))

theorem chunkList_getElem? {α : Type} (sz : Nat) (hsz : 0 < sz) :
    ∀ (i : Nat) (l : List α),
      (chunkList sz l)[i]? = if i * sz < l.length then some ((l.drop (i * sz)).take sz) else none := by
  intro i
  induction i with
  | zero =>
    intro l
    cases l with
    | nil => rfl
    | cons a as =>
      rw [chunkList_ne_nil sz hsz _ (by simp)]
      simp
  | succ i ih =>
    intro l
    cases l with
    | nil => simp [chunkList_nil]
    | cons a as =>
      rw [chunkList_ne_nil sz hsz _ (by simp)]
      rw [List.getElem?_cons_succ, ih]
      have harith : (i + 1) * sz = sz + i * sz := by ring
      by_cases hc : i * sz < ((a :: as).drop sz).length
      · rw [if_pos hc, if_pos (by simp [List.length_drop] at hc ⊢; omega)]
        rw [List.drop_drop, ← harith]
      · rw [if_neg hc, if_neg (by simp [List.length_drop] at hc ⊢; omega)]

/-! ## Lemmas about the `fetchChunkData` retry loop -/

theorem fetchLoop_pass (env : Env) (a : Bytes) (occ base cap i n : Nat)
    (hf : env.readFails a occ i = false) :
    fetchLoop env a occ base cap i (n + 1) = (.ok (env.payload a), [Ev.readAttempt a occ i]) := by
  simp [fetchLoop, hf]

theorem fetchLoop_last_fail (env : Env) (a : Bytes) (occ base cap i : Nat)
    (hf : env.readFails a occ i = true) :
    fetchLoop env a occ base cap i 1 = (.error "fetch failed", [Ev.readAttempt a occ i]) := by
  simp [fetchLoop, hf]

theorem fetchLoop_step_fail (env : Env) (a : Bytes) (occ base cap i m : Nat)
    (hf : env.readFails a occ i = true) :
    fetchLoop env a occ base cap i (m + 2) =
      ((fetchLoop env a occ base cap (i + 1) (m + 1)).1,
        Ev.readAttempt a occ i :: Ev.readBackoff (min (base * 2 ^ i) cap) ::
          (fetchLoop env a occ base cap (i + 1) (m + 1)).2) := by
  simp [fetchLoop, hf]

theorem fetchLoop_fst_ok (env : Env) (a : Bytes) (occ base cap : Nat) :
    ∀ (n i : Nat), (∃ j, i ≤ j ∧ j < i + n ∧ env.readFails a occ j = false) →
      (fetchLoop env a occ base cap i n).1 = .ok (env.payload a) := by
  intro n
  induction n with
  | zero => rintro i ⟨j, h1, h2, _⟩; omega
  | succ n ih =>
    rintro i ⟨j, hij, hjn, hok⟩
    by_cases hf : env.readFails a occ i
    · have hji : i ≠ j := by rintro rfl; rw [hf] at hok; cases hok
      cases n with
      | zero => omega
      | succ m =>
        rw [fetchLoop_step_fail env a occ base cap i m hf]
        exact ih (i + 1) ⟨j, by omega, by omega, hok⟩
    · rw [fetchLoop_pass env a occ base cap i n (Bool.not_eq_true _ ▸ hf)]

theorem fetchLoop_fst_err (env : Env) (a : Bytes) (occ base cap : Nat) :
    ∀ (n i : Nat), (∀ j, i ≤ j → j < i + n → env.readFails a occ j = true) →
      (fetchLoop env a occ base cap i n).1 = .error "fetch failed" := by
  intro n
  induction n with
  | zero => intro i _; rfl
  | succ n ih =>
    intro i h
    have hf : env.readFails a occ i = true := h i (Nat.le_refl _) (by omega)
    cases n with
    | zero => rw [fetchLoop_last_fail env a occ base cap i hf]
    | succ m =>
      rw [fetchLoop_step_fail env a occ base cap i m hf]
      exact ih (i + 1) (fun j h1 h2 => h j (by omega) (by omega))

theorem fetchLoop_trace_mem (env : Env) (a : Bytes) (occ base cap : Nat) :
    ∀ (n i : Nat) (e : Ev), e ∈ (fetchLoop env a occ base cap i n).2 →
      (∃ j, i ≤ j ∧ j < i + n ∧ e = Ev.readAttempt a occ j) ∨
      (∃ j, i ≤ j ∧ j + 1 < i + n ∧ e = Ev.readBackoff (min (base * 2 ^ j) cap)) := by
  intro n
  induction n with
  | zero => intro i e h; cases h
  | succ n ih =>
    intro i e h
    by_cases hf : env.readFails a occ i
    · cases n with
      | zero =>
        rw [fetchLoop_last_fail env a occ base cap i hf] at h
        simp at h
        exact Or.inl ⟨i, Nat.le_refl _, by omega, by rw [h]⟩
      | succ m =>
        rw [fetchLoop_step_fail env a occ base cap i m hf] at h
        simp only [List.mem_cons] at h
        rcases h with h | h | h
        · exact Or.inl ⟨i, Nat.le_refl _, by omega, by rw [h]⟩
        · exact Or.inr ⟨i, Nat.le_refl _, by omega, by rw [h]⟩
        · rcases ih (i + 1) e h with ⟨j, h1, h2, h3⟩ | ⟨j, h1, h2, h3⟩
          · exact Or.inl ⟨j, by omega, by omega, h3⟩
          · exact Or.inr ⟨j, by omega, by omega, h3⟩
    · rw [fetchLoop_pass env a occ base cap i n (Bool.not_eq_true _ ▸ hf)] at h
      simp at h
      exact Or.inl ⟨i, Nat.le_refl _, by omega, by rw [h]⟩

theorem fetchLoop_err_msg (env : Env) (a : Bytes) (occ base cap : Nat) :
    ∀ (n i : Nat) (e : String), (fetchLoop env a occ base cap i n).1 = .error e →
      e = "fetch failed" := by
  intro n
  induction n with
  | zero => intro i e h; exact (Except.error.inj h).symm
  | succ n ih =>
    intro i e h
    by_cases hf : env.readFails a occ i
    · cases n with
      | zero =>
        rw [fetchLoop_last_fail env a occ base cap i hf] at h
        exact (Except.error.inj h).symm
      | succ m =>
        rw [fetchLoop_step_fail env a occ base cap i m hf] at h
        exact ih (i + 1) e h
    · rw [fetchLoop_pass env a occ base cap i n (Bool.not_eq_true _ ▸ hf)] at h
      cases h

/-- Whether an event is a single-read RPC attempt. -/
def isReadAttempt : Ev → Bool
  | .readAttempt _ _ _ => true
  | _ => false

theorem fetchLoop_attempts_le (env : Env) (a : Bytes) (occ base cap : Nat) :
    ∀ (n i : Nat), ((fetchLoop env a occ base cap i n).2.countP isReadAttempt) ≤ n := by
  intro n
  induction n with
  | zero => intro i; simp [fetchLoop]
  | succ n ih =>
    intro i
    by_cases hf : env.readFails a occ i
    · cases n with
      | zero =>
        rw [fetchLoop_last_fail env a occ base cap i hf]
        simp [List.countP_cons, isReadAttempt]
      | succ m =>
        rw [fetchLoop_step_fail env a occ base cap i m hf]
        have := ih (i + 1)
        simp [List.countP_cons, isReadAttempt]
        omega
    · rw [fetchLoop_pass env a occ base cap i n (Bool.not_eq_true _ ▸ hf)]
      simp [List.countP_cons, isReadAttempt]

theorem fetchLoop_errFree (env : Env) (a : Bytes) (occ base cap i n : Nat)
    (hfree : ∀ a' occ' i', env.readFails a' occ' i' = false) :
    fetchLoop env a occ base cap i (n + 1) = (.ok (env.payload a), [Ev.readAttempt a occ i]) := by
  simp [fetchLoop, hfree]

theorem fetchLoop_ok_payload (env : Env) (a : Bytes) (occ base cap : Nat) :
    ∀ (n i : Nat) (d : Bytes), (fetchLoop env a occ base cap i n).1 = .ok d →
      d = env.payload a := by
  intro n
  induction n with
  | zero => intro i d h; cases h
  | succ n ih =>
    intro i d h
    by_cases hf : env.readFails a occ i
    · cases n with
      | zero => rw [fetchLoop_last_fail env a occ base cap i hf] at h; cases h
      | succ m =>
        rw [fetchLoop_step_fail env a occ base cap i m hf] at h
        exact ih (i + 1) d h
    · rw [fetchLoop_pass env a occ base cap i n (Bool.not_eq_true _ ▸ hf)] at h
      exact (Except.ok.inj h).symm

/-! ## The address-tree layout relation and discovery -/

/-- `Stores p a d ls`: under the payload map `p`, address `a` heads a
well-formed address tree of declared depth `d` whose depth-first
left-to-right leaf addresses are `ls`.  A depth-0 node is itself a leaf;
a depth-`d+1` node's payload is the concatenation of its children's
20-byte addresses, each child heading a tree of depth `d` (the source
recursion always descends exactly `depth` levels, so the tree is
uniform).  This is the data model of the spec's TreeNode, used as the
hypothesis "the content is arranged into an address tree". -/
inductive Stores (p : Bytes → Bytes) : Bytes → Nat → List Bytes → Prop where
  | leaf (a : Bytes) : Stores p a 0 [a]
  | node (a : Bytes) (d : Nat) (addrs : List Bytes) (lss : List (List Bytes))
      (hpay : p a = addrs.flatten)
      (hlen : ∀ b ∈ addrs, b.length = 20)
      (hlens : addrs.length = lss.length)
      (hall : ∀ i, i < addrs.length → Stores p (addrs.getD i []) d (lss.getD i [])) :
      Stores p a (d + 1) lss.flatten

/-- Leaf descriptors for consecutive indices starting at `i`. -/
def mkLeavesFrom : Nat → List Bytes → List Leaf
  | _, [] => []
  | i, a :: rest => ⟨i, a⟩ :: mkLeavesFrom (i + 1) rest

theorem mkLeavesFrom_append (l₁ : List Bytes) :
    ∀ (i : Nat) (l₂ : List Bytes),
      mkLeavesFrom i (l₁ ++ l₂) = mkLeavesFrom i l₁ ++ mkLeavesFrom (i + l₁.length) l₂ := by
  induction l₁ with
  | nil => intro i l₂; simp [mkLeavesFrom]
  | cons a as ih =>
    intro i l₂
    simp only [List.cons_append, mkLeavesFrom, List.append_eq, List.length_cons]
    rw [ih (i + 1) l₂, show i + 1 + as.length = i + (as.length + 1) by omega]

theorem mkLeavesFrom_map_index (ls : List Bytes) :
    ∀ i, (mkLeavesFrom i ls).map Leaf.index = List.range' i ls.length := by
  induction ls with
  | nil => intro i; rfl
  | cons a as ih => intro i; simp [mkLeavesFrom, List.range'_succ, ih]

theorem mkLeavesFrom_map_address (ls : List Bytes) :
    ∀ i, (mkLeavesFrom i ls).map Leaf.address = ls := by
  induction ls with
  | nil => intro i; rfl
  | cons a as ih => intro i; simp [mkLeavesFrom, ih]

theorem exceptBindOk {ε α β : Type} (a : α) (f : α → Except ε β) :
    (Except.ok a >>= f : Except ε β) = f a := rfl

theorem exceptPureBind {ε α β : Type} (a : α) (f : α → Except ε β) :
    ((pure a : Except ε α) >>= f) = f a := rfl

theorem exceptMapOk {ε α β : Type} (g : α → β) (a : α) :
    (Except.ok a : Except ε α).map g = .ok (g a) := rfl

theorem exceptMapError {ε α β : Type} (g : α → β) (e : ε) :
    (Except.error e : Except ε α).map g = .error e := rfl

theorem exceptErrorBind {ε α β : Type} (e : ε) (f : α → Except ε β) :
    (Except.error e >>= f : Except ε β) = .error e := rfl

theorem traverseNodeCtr_zero (env : Env) (a : Bytes) (ctr : Nat) :
    traverseNodeCtr env 0 a ctr = .ok ([⟨ctr, a⟩], ctr + 1) := rfl

theorem traverseNodeCtr_succ_ok (env : Env) (d : Nat) (a : Bytes) (ctr : Nat) (data : Bytes)
    (hfetch : (fetchChunkData env a 0 3).1 = .ok data) :
    traverseNodeCtr env (d + 1) a ctr =
      (splitAddrs data).foldlM (fun acc c => do
        let r ← traverseNodeCtr env d c acc.2
        pure (acc.1 ++ r.1, r.2)) (([] : List Leaf), ctr) := by
  simp [traverseNodeCtr, hfetch]

theorem traverseNodeCtr_succ_err (env : Env) (d : Nat) (a : Bytes) (ctr : Nat) (e : String)
    (hfetch : (fetchChunkData env a 0 3).1 = .error e) :
    traverseNodeCtr env (d + 1) a ctr = .error e := by
  simp [traverseNodeCtr, hfetch]

/-- Any successful traversal of a well-formed subtree yields exactly its
depth-first leaves, indexed consecutively from the incoming counter. -/
theorem traverseNodeCtr_ok (env : Env) :
    ∀ (d : Nat) (a : Bytes) (ls : List Bytes), Stores env.payload a d ls →
      ∀ (ctr : Nat) (res : List Leaf × Nat), traverseNodeCtr env d a ctr = .ok res →
        res = (mkLeavesFrom ctr ls, ctr + ls.length) := by
  intro d
  induction d with
  | zero =>
    intro a ls h ctr res hres
    cases h
    rw [traverseNodeCtr_zero] at hres
    simp only [mkLeavesFrom, List.length_cons, List.length_nil]
    exact (Except.ok.inj hres).symm
  | succ d ih =>
    intro a ls h ctr res hres
    cases h with
    | node _ _ addrs lss hpay hlen hlens hall =>
      cases hfetch : (fetchChunkData env a 0 3).1 with
      | error e => rw [traverseNodeCtr_succ_err env d a ctr e hfetch] at hres; cases hres
      | ok data =>
        rw [traverseNodeCtr_succ_ok env d a ctr data hfetch] at hres
        have hdata : data = env.payload a := fetchLoop_ok_payload env a 0 200 2000 3 0 data hfetch
        rw [hdata, hpay] at hres
        rw [show splitAddrs addrs.flatten = addrs from chunkList_of_blocks 20 (by omega) addrs hlen] at hres
        -- generalized fold characterization, by induction on the child lists
        have fold : ∀ (bs : List Bytes) (ms : List (List Bytes)), bs.length = ms.length →
            (∀ i, i < bs.length → Stores env.payload (bs.getD i []) d (ms.getD i [])) →
            ∀ (acc : List Leaf) (c : Nat) (r : List Leaf × Nat),
              (bs.foldlM (fun acc' c' => do
                let r' ← traverseNodeCtr env d c' acc'.2
                pure (acc'.1 ++ r'.1, r'.2)) (acc, c)) = .ok r →
              r = (acc ++ mkLeavesFrom c ms.flatten, c + ms.flatten.length) := by
          intro bs
          induction bs with
          | nil =>
            intro ms hmslen _ acc c r hr
            have : ms = [] := List.eq_nil_of_length_eq_zero hmslen.symm
            subst this
            simp only [List.foldlM_nil] at hr
            simp only [List.flatten_nil, mkLeavesFrom, List.append_nil, List.length_nil,
              Nat.add_zero]
            exact (Except.ok.inj hr).symm
          | cons b bs' ihf =>
            intro ms hmslen hms acc c r hr
            cases ms with
            | nil => cases hmslen
            | cons m ms' =>
              have hb : Stores env.payload b d m := by
                have := hms 0 (by simp)
                simpa using this
              rw [List.foldlM_cons] at hr
              cases hstep : traverseNodeCtr env d b c with
              | error e =>
                rw [hstep] at hr
                cases hr
              | ok r' =>
                rw [hstep] at hr
                simp only [exceptBindOk, exceptPureBind] at hr
                have hr' := ih b m hb c r' hstep
                rw [hr'] at hr
                have htail := ihf ms' (by simpa using hmslen)
                  (fun i hi => by
                    have := hms (i + 1) (by simp; omega)
                    simpa using this)
                  (acc ++ mkLeavesFrom c m) (c + m.length) r hr
                rw [htail, List.flatten_cons, mkLeavesFrom_append]
                simp only [List.append_assoc, List.length_append, Prod.mk.injEq, true_and]
                omega
        exact fold addrs lss hlens hall [] ctr res hres

/-- With an error-free network, traversal of a well-formed subtree
succeeds and yields exactly its depth-first leaves. -/
theorem traverseNodeCtr_errFree (env : Env)
    (hfree : ∀ a' occ' i', env.readFails a' occ' i' = false) :
    ∀ (d : Nat) (a : Bytes) (ls : List Bytes), Stores env.payload a d ls →
      ∀ (ctr : Nat),
        traverseNodeCtr env d a ctr = .ok (mkLeavesFrom ctr ls, ctr + ls.length) := by
  intro d
  induction d with
  | zero =>
    intro a ls h ctr
    cases h
    rw [traverseNodeCtr_zero]
    rfl
  | succ d ih =>
    intro a ls h ctr
    cases h with
    | node _ _ addrs lss hpay hlen hlens hall =>
      have hfetch : (fetchChunkData env a 0 3).1 = .ok (env.payload a) := by
        rw [show fetchChunkData env a 0 3 = fetchLoop env a 0 200 2000 0 (2 + 1) from rfl,
          fetchLoop_errFree env a 0 200 2000 0 2 hfree]
      rw [traverseNodeCtr_succ_ok env d a ctr (env.payload a) hfetch, hpay,
        show splitAddrs addrs.flatten = addrs from chunkList_of_blocks 20 (by omega) addrs hlen]
      have fold : ∀ (bs : List Bytes) (ms : List (List Bytes)), bs.length = ms.length →
          (∀ i, i < bs.length → Stores env.payload (bs.getD i []) d (ms.getD i [])) →
          ∀ (acc : List Leaf) (c : Nat),
            (bs.foldlM (fun acc' c' => do
              let r' ← traverseNodeCtr env d c' acc'.2
              pure (acc'.1 ++ r'.1, r'.2)) (acc, c)) =
            .ok (acc ++ mkLeavesFrom c ms.flatten, c + ms.flatten.length) := by
        intro bs
        induction bs with
        | nil =>
          intro ms hmslen _ acc c
          have : ms = [] := List.eq_nil_of_length_eq_zero hmslen.symm
          subst this
          simp only [List.foldlM_nil, List.flatten_nil, mkLeavesFrom, List.append_nil,
            List.length_nil, Nat.add_zero]
          rfl
        | cons b bs' ihf =>
          intro ms hmslen hms acc c
          cases ms with
          | nil => cases hmslen
          | cons m ms' =>
            have hb : Stores env.payload b d m := by
              have := hms 0 (by simp)
              simpa using this
            rw [List.foldlM_cons, ih b m hb c]
            simp only [exceptBindOk, exceptPureBind]
            rw [ihf ms' (by simpa using hmslen)
              (fun i hi => by
                have := hms (i + 1) (by simp; omega)
                simpa using this)
              (acc ++ mkLeavesFrom c m) (c + m.length)]
            simp only [List.flatten_cons, mkLeavesFrom_append, List.append_assoc,
              List.length_append, Except.ok.injEq, Prod.mk.injEq, true_and]
            omega
      exact fold addrs lss hlens hall [] ctr

theorem collectLeafAddresses_ok (env : Env) (root : Bytes) (d : Nat) (ls : List Bytes)
    (h : Stores env.payload root d ls) (leaves : List Leaf)
    (hres : collectLeafAddresses env root d = .ok leaves) :
    leaves = mkLeavesFrom 0 ls := by
  unfold collectLeafAddresses at hres
  cases ht : traverseNodeCtr env d root 0 with
  | error e => rw [ht] at hres; cases hres
  | ok r =>
    rw [ht, exceptMapOk] at hres
    have := traverseNodeCtr_ok env d root ls h 0 r ht
    rw [← Except.ok.inj hres, this]

theorem collectLeafAddresses_errFree (env : Env)
    (hfree : ∀ a' occ' i', env.readFails a' occ' i' = false)
    (root : Bytes) (d : Nat) (ls : List Bytes) (h : Stores env.payload root d ls) :
    collectLeafAddresses env root d = .ok (mkLeavesFrom 0 ls) := by
  unfold collectLeafAddresses
  rw [traverseNodeCtr_errFree env hfree d root ls h 0]
  rfl

/-- Traversal errors carry the fetch failure message and nothing else. -/
theorem traverseNodeCtr_err_msg (env : Env) :
    ∀ (d : Nat) (a : Bytes) (ctr : Nat) (e : String),
      traverseNodeCtr env d a ctr = .error e → e = "fetch failed" := by
  intro d
  induction d with
  | zero => intro a ctr e h; rw [traverseNodeCtr_zero] at h; cases h
  | succ d ih =>
    intro a ctr e h
    cases hfetch : (fetchChunkData env a 0 3).1 with
    | error e' =>
      rw [traverseNodeCtr_succ_err env d a ctr e' hfetch] at h
      rw [← Except.error.inj h]
      exact fetchLoop_err_msg env a 0 200 2000 3 0 e' hfetch
    | ok data =>
      rw [traverseNodeCtr_succ_ok env d a ctr data hfetch] at h
      have fold : ∀ (bs : List Bytes) (acc : List Leaf) (c : Nat) (e : String),
          (bs.foldlM (fun acc' c' => do
            let r' ← traverseNodeCtr env d c' acc'.2
            pure (acc'.1 ++ r'.1, r'.2)) (acc, c)) = .error e → e = "fetch failed" := by
        intro bs
        induction bs with
        | nil => intro acc c e h; cases h
        | cons b bs ihb =>
          intro acc c e h
          rw [List.foldlM_cons] at h
          cases hstep : traverseNodeCtr env d b c with
          | error e' =>
            rw [hstep, exceptErrorBind] at h
            rw [← Except.error.inj h]
            exact ih b c e' hstep
          | ok r' =>
            rw [hstep, exceptBindOk, exceptPureBind] at h
            exact ihb _ _ e h
      exact fold _ _ _ _ h

/-- If one child of a branch node always fails to traverse, so does the
branch node itself (the fold aborts at the first error). -/
theorem traverseNodeCtr_child_err (env : Env) (d : Nat) (p c : Bytes)
    (hok : ∃ i, i < 3 ∧ env.readFails p 0 i = false)
    (hc : c ∈ splitAddrs (env.payload p))
    (herr : ∀ ctr, traverseNodeCtr env d c ctr = .error "fetch failed") :
    ∀ ctr, traverseNodeCtr env (d + 1) p ctr = .error "fetch failed" := by
  intro ctr
  obtain ⟨i, hi, hio⟩ := hok
  have hfetch : (fetchChunkData env p 0 3).1 = .ok (env.payload p) :=
    fetchLoop_fst_ok env p 0 200 2000 3 0 ⟨i, by omega, by omega, hio⟩
  rw [traverseNodeCtr_succ_ok env d p ctr (env.payload p) hfetch]
  have fold : ∀ (bs : List Bytes), c ∈ bs → ∀ (acc : List Leaf) (cnt : Nat),
      (bs.foldlM (fun acc' c' => do
        let r' ← traverseNodeCtr env d c' acc'.2
        pure (acc'.1 ++ r'.1, r'.2)) (acc, cnt)) = .error "fetch failed" := by
    intro bs
    induction bs with
    | nil => intro hmem; cases hmem
    | cons b bs ihb =>
      intro hmem acc cnt
      rw [List.foldlM_cons]
      rcases List.mem_cons.mp hmem with rfl | hmem'
      · rw [herr cnt]
        simp only [exceptErrorBind]
      · cases hstep : traverseNodeCtr env d b cnt with
        | error e' =>
          simp only [exceptErrorBind]
          rw [traverseNodeCtr_err_msg env d b cnt e' hstep]
        | ok r' =>
          simp only [exceptBindOk, exceptPureBind]
          exact ihb hmem' _ _
  exact fold _ hc [] ctr

/-- `VisitsB env a d b e`: starting discovery at root `a` of declared
depth `d`, the traversal reaches node `b` at remaining depth `e` (the
fetches of every strict ancestor of `b` succeed, and `b` is among the
parsed children at each step). -/
inductive VisitsB (env : Env) (a : Bytes) (d : Nat) : Bytes → Nat → Prop where
  | refl : VisitsB env a d a d
  | step (b : Bytes) (e : Nat) (c : Bytes) :
      VisitsB env a d b (e + 1) →
      (∃ i, i < 3 ∧ env.readFails b 0 i = false) →
      c ∈ splitAddrs (env.payload b) →
      VisitsB env a d c e

/-- If a reachable branch node's read fails all three attempts, the whole
traversal from the root fails. -/
theorem visits_fail_aborts (env : Env) (root : Bytes) (d : Nat) (b : Bytes) (k : Nat)
    (hv : VisitsB env root d b (k + 1))
    (hfail : ∀ i, i < 3 → env.readFails b 0 i = true) :
    ∀ ctr, traverseNodeCtr env d root ctr = .error "fetch failed" := by
  have hb : ∀ ctr, traverseNodeCtr env (k + 1) b ctr = .error "fetch failed" := by
    intro ctr
    have hfetch : (fetchChunkData env b 0 3).1 = .error "fetch failed" :=
      fetchLoop_fst_err env b 0 200 2000 3 0 (fun j _ hj => hfail j (by omega))
    exact traverseNodeCtr_succ_err env k b ctr _ hfetch
  -- propagate up the visit derivation
  suffices h : ∀ (b' : Bytes) (e : Nat), VisitsB env root d b' e →
      (∀ ctr, traverseNodeCtr env e b' ctr = .error "fetch failed") →
      ∀ ctr, traverseNodeCtr env d root ctr = .error "fetch failed" from
    h b (k + 1) hv hb
  intro b' e hv'
  induction hv' with
  | refl => intro hroot; exact hroot
  | step p e' c hvp hok hc ihp =>
    intro herr
    exact ihp (traverseNodeCtr_child_err env e' p c hok hc herr)

/-! ## Lemmas about the batch fetcher -/

/-- The per-address result of a sequential individual fetch. -/
def singleResFn (env : Env) (occ retries base cap : Nat) (a : Bytes) : Option Bytes :=
  (fetchLoop env a occ base cap 0 retries).1.toOption

/-- The per-address result of one `fetchChunksBatch` call: if multicall
is on and some aggregate attempt goes through, the slot result;
otherwise the individual-fetch result. -/
def batchResFn (env : Env) (um : Bool) (occ retries base cap : Nat) (a : Bytes) :
    Option Bytes :=
  if um then
    match (List.range' 0 retries).find? (fun j => !(env.aggFails occ j)) with
    | some _ => if env.slotFails a occ then none else some (env.payload a)
    | none => singleResFn env occ retries base cap a
  else singleResFn env occ retries base cap a

theorem fetchChunksIndividuallyG_fst (env : Env) (occ retries base cap : Nat) :
    ∀ addrs : List Bytes,
      (fetchChunksIndividuallyG env occ retries base cap addrs).1 =
        addrs.map (singleResFn env occ retries base cap) := by
  intro addrs
  induction addrs with
  | nil => rfl
  | cons a rest ih => simp [fetchChunksIndividuallyG, singleResFn, ih]

theorem fetchBatchLoop_pass (env : Env) (addrs : List Bytes) (occ retries base cap i n : Nat)
    (hf : env.aggFails occ i = false) :
    fetchBatchLoop env addrs occ retries base cap i (n + 1) =
      (addrs.map fun a => if env.slotFails a occ then none else some (env.payload a),
       [Ev.aggAttempt occ i]) := by
  simp [fetchBatchLoop, hf]

theorem fetchBatchLoop_last_fail (env : Env) (addrs : List Bytes) (occ retries base cap i : Nat)
    (hf : env.aggFails occ i = true) :
    fetchBatchLoop env addrs occ retries base cap i 1 =
      ((fetchChunksIndividuallyG env occ retries base cap addrs).1,
        Ev.aggAttempt occ i :: (fetchChunksIndividuallyG env occ retries base cap addrs).2) := by
  simp [fetchBatchLoop, hf]

theorem fetchBatchLoop_step_fail (env : Env) (addrs : List Bytes) (occ retries base cap i m : Nat)
    (hf : env.aggFails occ i = true) :
    fetchBatchLoop env addrs occ retries base cap i (m + 2) =
      ((fetchBatchLoop env addrs occ retries base cap (i + 1) (m + 1)).1,
        Ev.aggAttempt occ i :: Ev.aggBackoff (min (300 * 2 ^ i) 3000) ::
          (fetchBatchLoop env addrs occ retries base cap (i + 1) (m + 1)).2) := by
  simp [fetchBatchLoop, hf]

theorem fetchBatchLoop_fst (env : Env) (addrs : List Bytes) (occ retries base cap : Nat) :
    ∀ (n i : Nat),
      (fetchBatchLoop env addrs occ retries base cap i n).1 =
        match (List.range' i n).find? (fun j => !(env.aggFails occ j)) with
        | some _ => addrs.map fun a => if env.slotFails a occ then none else some (env.payload a)
        | none =>
          if n = 0 then []
          else (fetchChunksIndividuallyG env occ retries base cap addrs).1 := by
  intro n
  induction n with
  | zero => intro i; rfl
  | succ n ih =>
    intro i
    rw [List.range'_succ]
    by_cases hf : env.aggFails occ i
    · rw [List.find?_cons_of_neg _ (by simp [hf])]
      cases n with
      | zero =>
        rw [fetchBatchLoop_last_fail env addrs occ retries base cap i hf]
        show (fetchChunksIndividuallyG env occ retries base cap addrs).1 = _
        simp
      | succ m =>
        rw [fetchBatchLoop_step_fail env addrs occ retries base cap i m hf]
        show (fetchBatchLoop env addrs occ retries base cap (i + 1) (m + 1)).1 = _
        rw [ih (i + 1)]
        cases (List.range' (i + 1) (m + 1)).find? (fun j => !(env.aggFails occ j)) with
        | some j => rfl
        | none => simp
    · rw [List.find?_cons_of_pos _ (by simp [hf]),
        fetchBatchLoop_pass env addrs occ retries base cap i n
          (Bool.not_eq_true _ ▸ hf)]

theorem fetchChunksBatchG_fst (env : Env) (um : Bool) (occ retries base cap : Nat)
    (addrs : List Bytes) (hr : 1 ≤ retries) :
    (fetchChunksBatchG env um occ retries base cap addrs).1 =
      addrs.map (batchResFn env um occ retries base cap) := by
  cases um with
  | false =>
    unfold fetchChunksBatchG
    rw [if_pos (Or.inl (by simp)), fetchChunksIndividuallyG_fst]
    simp [batchResFn]
  | true =>
    by_cases ha : addrs = []
    · subst ha
      simp [fetchChunksBatchG, fetchChunksIndividuallyG]
    · unfold fetchChunksBatchG
      rw [if_neg (by simp [ha]), fetchBatchLoop_fst]
      cases hfind : (List.range' 0 retries).find? (fun j => !(env.aggFails occ j)) with
      | some j => simp [batchResFn, hfind]
      | none =>
        rw [if_neg (by omega), fetchChunksIndividuallyG_fst]
        simp [batchResFn, hfind]

theorem batchResFn_errFree (env : Env) (um : Bool) (occ retries base cap : Nat)
    (hfree : errFree env) (hr : 1 ≤ retries) :
    batchResFn env um occ retries base cap = fun a => some (env.payload a) := by
  obtain ⟨hrf, haf, hsf⟩ := hfree
  funext a
  have hone : singleResFn env occ retries base cap a = some (env.payload a) := by
    cases retries with
    | zero => omega
    | succ k =>
      unfold singleResFn
      rw [fetchLoop_pass env a occ base cap 0 k (hrf a occ 0)]
      rfl
  cases um with
  | false => simpa [batchResFn] using hone
  | true =>
    cases retries with
    | zero => omega
    | succ k =>
      rw [batchResFn, if_pos rfl, List.range'_succ,
        List.find?_cons_of_pos _ (by simp [haf])]
      simp [hsf]

theorem splitResults_eq (g : Leaf → Option Bytes) :
    ∀ batch : List Leaf,
      splitResults batch (batch.map g) =
        ((batch.filter (fun l => (g l).isSome)).map (fun l => ⟨l.index, (g l).getD []⟩),
         batch.filter (fun l => (g l).isNone)) := by
  intro batch
  induction batch with
  | nil => rfl
  | cons l ls ih =>
    simp only [List.map_cons, splitResults, ih]
    cases hg : g l with
    | some d => simp [List.filter_cons, hg]
    | none => simp [List.filter_cons, hg]

theorem splitResults_all_some (g : Leaf → Bytes) :
    ∀ b : List Leaf,
      splitResults b (b.map (fun l => some (g l))) =
        (b.map (fun l => ⟨l.index, g l⟩), []) := by
  intro b
  induction b with
  | nil => rfl
  | cons l ls ih => simp [splitResults, ih]

theorem loadBatches_cons (env : Env) (um : Bool) (b : List Leaf) (bss : List (List Leaf))
    (k : Nat) :
    loadBatches env um (b :: bss) k =
      ⟨(splitResults b (fetchChunksBatch env um k 2 (b.map Leaf.address)).1).1
          ++ (loadBatches env um bss (k + 1)).chunks,
        (splitResults b (fetchChunksBatch env um k 2 (b.map Leaf.address)).1).2
          ++ (loadBatches env um bss (k + 1)).failed,
        (fetchChunksBatch env um k 2 (b.map Leaf.address)).2
          ++ (if bss ≠ [] then [Ev.groupWait 100] else [])
          ++ (loadBatches env um bss (k + 1)).trace⟩ := rfl

theorem loadBatches_errFree (env : Env) (um : Bool) (hfree : errFree env) :
    ∀ (bss : List (List Leaf)) (k : Nat),
      (loadBatches env um bss k).chunks
          = bss.flatten.map (fun l => ⟨l.index, env.payload l.address⟩)
        ∧ (loadBatches env um bss k).failed = [] := by
  intro bss
  induction bss with
  | nil => intro k; exact ⟨rfl, rfl⟩
  | cons b bss ih =>
    intro k
    obtain ⟨ihc, ihf⟩ := ih (k + 1)
    have hres : (fetchChunksBatch env um k 2 (b.map Leaf.address)).1
        = b.map (fun l => some (env.payload l.address)) := by
      unfold fetchChunksBatch
      rw [fetchChunksBatchG_fst env um k 2 200 2000 _ (by omega),
        batchResFn_errFree env um k 2 200 2000 hfree (by omega), List.map_map]
      rfl
    rw [loadBatches_cons]
    constructor
    · show (splitResults b (fetchChunksBatch env um k 2 (b.map Leaf.address)).1).1
          ++ (loadBatches env um bss (k + 1)).chunks = _
      rw [hres, splitResults_all_some (fun l => env.payload l.address) b, ihc,
        List.flatten_cons, List.map_append]
    · show (splitResults b (fetchChunksBatch env um k 2 (b.map Leaf.address)).1).2
          ++ (loadBatches env um bss (k + 1)).failed = _
      rw [hres, splitResults_all_some (fun l => env.payload l.address) b, ihf]
      rfl

theorem loadChunksInBatches_errFree (env : Env) (um : Bool) (bs : Nat) (hbs : 1 ≤ bs)
    (hfree : errFree env) (leaves : List Leaf) :
    (loadChunksInBatches env um bs leaves).chunks
        = leaves.map (fun l => ⟨l.index, env.payload l.address⟩)
      ∧ (loadChunksInBatches env um bs leaves).failed = [] := by
  have := loadBatches_errFree env um hfree (chunkList bs leaves) 0
  rwa [flatten_chunkList bs (by omega) leaves] at this

theorem permAppendShuffle {α : Type} (A₁ A₂ B₁ B₂ : List α) :
    ((A₁ ++ A₂) ++ (B₁ ++ B₂)).Perm ((A₁ ++ B₁) ++ (A₂ ++ B₂)) := by
  have h1 : (A₁ ++ A₂) ++ (B₁ ++ B₂) = A₁ ++ ((A₂ ++ B₁) ++ B₂) := by
    simp [List.append_assoc]
  have h2 : (A₁ ++ B₁) ++ (A₂ ++ B₂) = A₁ ++ ((B₁ ++ A₂) ++ B₂) := by
    simp [List.append_assoc]
  rw [h1, h2]
  exact List.Perm.append_left A₁ (List.Perm.append_right B₂ List.perm_append_comm)

theorem splitResults_perm (g : Leaf → Option Bytes) (b : List Leaf) :
    ((splitResults b (b.map g)).1.map Chunk.index
      ++ (splitResults b (b.map g)).2.map Leaf.index).Perm (b.map Leaf.index) := by
  rw [splitResults_eq g b]
  show (((b.filter (fun l => (g l).isSome)).map (fun l =>
      (⟨l.index, (g l).getD []⟩ : Chunk))).map Chunk.index
    ++ (b.filter (fun l => (g l).isNone)).map Leaf.index).Perm (b.map Leaf.index)
  rw [List.map_map, show (Chunk.index ∘ fun l => (⟨l.index, (g l).getD []⟩ : Chunk))
    = Leaf.index from rfl]
  rw [show (fun l => (g l).isNone) = fun l => !((g l).isSome) by funext l; cases g l <;> rfl]
  have h := (List.filter_append_perm (fun l => (g l).isSome) b).map Leaf.index
  rwa [List.map_append] at h

theorem loadBatches_perm (env : Env) (um : Bool) :
    ∀ (bss : List (List Leaf)) (k : Nat),
      ((loadBatches env um bss k).chunks.map Chunk.index
        ++ (loadBatches env um bss k).failed.map Leaf.index).Perm
        (bss.flatten.map Leaf.index) := by
  intro bss
  induction bss with
  | nil => intro k; simp [loadBatches]
  | cons b bss ih =>
    intro k
    have hres : (fetchChunksBatch env um k 2 (b.map Leaf.address)).1
        = b.map (fun l => batchResFn env um k 2 200 2000 l.address) := by
      unfold fetchChunksBatch
      rw [fetchChunksBatchG_fst env um k 2 200 2000 _ (by omega), List.map_map]
      rfl
    rw [loadBatches_cons]
    show (((splitResults b (fetchChunksBatch env um k 2 (b.map Leaf.address)).1).1
        ++ (loadBatches env um bss (k + 1)).chunks).map Chunk.index
      ++ ((splitResults b (fetchChunksBatch env um k 2 (b.map Leaf.address)).1).2
        ++ (loadBatches env um bss (k + 1)).failed).map Leaf.index).Perm
      ((b :: bss).flatten.map Leaf.index)
    rw [hres, List.map_append, List.map_append, List.flatten_cons, List.map_append]
    exact (permAppendShuffle _ _ _ _).trans
      ((splitResults_perm (fun l => batchResFn env um k 2 200 2000 l.address) b).append
        (ih (k + 1)))

theorem loadChunksInBatches_perm (env : Env) (um : Bool) (bs : Nat) (hbs : 1 ≤ bs)
    (leaves : List Leaf) :
    ((loadChunksInBatches env um bs leaves).chunks.map Chunk.index
      ++ (loadChunksInBatches env um bs leaves).failed.map Leaf.index).Perm
      (leaves.map Leaf.index) := by
  have := loadBatches_perm env um (chunkList bs leaves) 0
  rwa [flatten_chunkList bs (by omega) leaves] at this

/-! ## Lemmas about the retry coordinator -/

/-- Whether a `fetchChunkData(address, 3)` call at occasion `r` succeeds
(some of its three attempts does not fail). -/
def retrySucc (env : Env) (a : Bytes) (r : Nat) : Bool :=
  (List.range 3).any fun i => !(env.readFails a r i)

theorem fetchChunkData_retry_cases (env : Env) (a : Bytes) (occ : Nat) :
    (fetchChunkData env a occ 3).1 =
      if retrySucc env a occ then .ok (env.payload a) else .error "fetch failed" := by
  by_cases h : retrySucc env a occ
  · rw [if_pos h]
    obtain ⟨i, hi, hok⟩ := List.any_eq_true.mp h
    exact fetchLoop_fst_ok env a occ 200 2000 3 0
      ⟨i, by omega, by have := List.mem_range.mp hi; omega, by simpa using hok⟩
  · rw [if_neg h]
    apply fetchLoop_fst_err env a occ 200 2000 3 0
    intro j _ hj
    by_contra hc
    exact h (List.any_eq_true.mpr
      ⟨j, List.mem_range.mpr (by omega), by simpa using hc⟩)

theorem retryPass_cons_ok (env : Env) (r : Nat) (l : Leaf) (t : List Leaf) (cs : List Chunk)
    (data : Bytes) (hfetch : (fetchChunkData env l.address r 3).1 = .ok data) :
    retryPass env r (l :: t) cs =
      ⟨(retryPass env r t (cs ++ [⟨l.index, data⟩])).chunks,
       (retryPass env r t (cs ++ [⟨l.index, data⟩])).toRetry,
       (fetchChunkData env l.address r 3).2
         ++ Ev.leafWait 100 :: (retryPass env r t (cs ++ [⟨l.index, data⟩])).trace⟩ := by
  simp [retryPass, hfetch]

theorem retryPass_cons_err (env : Env) (r : Nat) (l : Leaf) (t : List Leaf) (cs : List Chunk)
    (e : String) (hfetch : (fetchChunkData env l.address r 3).1 = .error e) :
    retryPass env r (l :: t) cs =
      ⟨(retryPass env r t cs).chunks, l :: (retryPass env r t cs).toRetry,
       (fetchChunkData env l.address r 3).2
         ++ Ev.leafWait 100 :: (retryPass env r t cs).trace⟩ := by
  simp [retryPass, hfetch]

theorem retryPass_eq (env : Env) (r : Nat) :
    ∀ (t : List Leaf) (cs : List Chunk),
      (retryPass env r t cs).chunks
          = cs ++ (t.filter (fun l => retrySucc env l.address r)).map
              (fun l => ⟨l.index, env.payload l.address⟩)
        ∧ (retryPass env r t cs).toRetry
          = t.filter (fun l => !(retrySucc env l.address r)) := by
  intro t
  induction t with
  | nil => intro cs; exact ⟨by simp [retryPass], rfl⟩
  | cons l t ih =>
    intro cs
    by_cases hs : retrySucc env l.address r
    · have hfetch : (fetchChunkData env l.address r 3).1 = .ok (env.payload l.address) := by
        rw [fetchChunkData_retry_cases, if_pos hs]
      rw [retryPass_cons_ok env r l t cs _ hfetch]
      obtain ⟨ihc, ihf⟩ := ih (cs ++ [⟨l.index, env.payload l.address⟩])
      refine ⟨?_, ?_⟩
      · show (retryPass env r t (cs ++ [⟨l.index, env.payload l.address⟩])).chunks = _
        rw [ihc, List.filter_cons_of_pos (by simpa using hs), List.map_cons,
          List.append_assoc]
        rfl
      · show (retryPass env r t (cs ++ [⟨l.index, env.payload l.address⟩])).toRetry = _
        rw [ihf, List.filter_cons_of_neg (by simpa using hs)]
    · have hfetch : (fetchChunkData env l.address r 3).1 = .error "fetch failed" := by
        rw [fetchChunkData_retry_cases, if_neg hs]
      rw [retryPass_cons_err env r l t cs _ hfetch]
      obtain ⟨ihc, ihf⟩ := ih cs
      refine ⟨?_, ?_⟩
      · show (retryPass env r t cs).chunks = _
        rw [ihc, List.filter_cons_of_neg (by simpa using hs)]
      · show l :: (retryPass env r t cs).toRetry = _
        rw [ihf, List.filter_cons_of_pos (by simpa using hs)]

theorem retryPass_trace_mem (env : Env) (r : Nat) :
    ∀ (t : List Leaf) (cs : List Chunk) (e : Ev), e ∈ (retryPass env r t cs).trace →
      (∃ l ∈ t, e ∈ (fetchChunkData env l.address r 3).2) ∨ e = Ev.leafWait 100 := by
  intro t
  induction t with
  | nil => intro cs e h; cases h
  | cons l t ih =>
    intro cs e h
    cases hfetch : (fetchChunkData env l.address r 3).1 with
    | ok data =>
      rw [retryPass_cons_ok env r l t cs data hfetch] at h
      simp only [List.mem_append, List.mem_cons] at h
      rcases h with h | h | h
      · exact Or.inl ⟨l, List.mem_cons_self _ _, h⟩
      · exact Or.inr h
      · rcases ih _ e h with ⟨l', hl', he⟩ | he
        · exact Or.inl ⟨l', List.mem_cons_of_mem _ hl', he⟩
        · exact Or.inr he
    | error e' =>
      rw [retryPass_cons_err env r l t cs e' hfetch] at h
      simp only [List.mem_append, List.mem_cons] at h
      rcases h with h | h | h
      · exact Or.inl ⟨l, List.mem_cons_self _ _, h⟩
      · exact Or.inr h
      · rcases ih _ e h with ⟨l', hl', he⟩ | he
        · exact Or.inl ⟨l', List.mem_cons_of_mem _ hl', he⟩
        · exact Or.inr he

theorem retryLoop_zero (env : Env) (round : Nat) (t : List Leaf) (cs : List Chunk) :
    retryLoop env 0 round t cs = ⟨cs, t, []⟩ := rfl

theorem retryLoop_nil (env : Env) (fuel round : Nat) (cs : List Chunk) :
    retryLoop env fuel round [] cs = ⟨cs, [], []⟩ := by
  cases fuel <;> rfl

theorem retryLoop_succ (env : Env) (fuel round : Nat) (t : List Leaf) (cs : List Chunk)
    (ht : t ≠ []) :
    retryLoop env (fuel + 1) round t cs =
      ⟨(retryLoop env fuel (round + 1) (retryPass env (round + 1) t cs).toRetry
          (retryPass env (round + 1) t cs).chunks).chunks,
       (retryLoop env fuel (round + 1) (retryPass env (round + 1) t cs).toRetry
          (retryPass env (round + 1) t cs).chunks).toRetry,
       Ev.roundWait (500 * (round + 1)) :: (retryPass env (round + 1) t cs).trace
         ++ (retryLoop env fuel (round + 1) (retryPass env (round + 1) t cs).toRetry
              (retryPass env (round + 1) t cs).chunks).trace⟩ := by
  simp [retryLoop, ht]

theorem retryLoop_chunks_prefix (env : Env) :
    ∀ (fuel round : Nat) (t : List Leaf) (cs : List Chunk),
      ∃ ext, (retryLoop env fuel round t cs).chunks = cs ++ ext := by
  intro fuel
  induction fuel with
  | zero => intro round t cs; exact ⟨[], by simp [retryLoop_zero]⟩
  | succ fuel ih =>
    intro round t cs
    by_cases ht : t = []
    · subst ht; exact ⟨[], by simp [retryLoop_nil]⟩
    · rw [retryLoop_succ env fuel round t cs ht]
      obtain ⟨ext, hext⟩ := ih (round + 1) (retryPass env (round + 1) t cs).toRetry
        (retryPass env (round + 1) t cs).chunks
      obtain ⟨hpc, _⟩ := retryPass_eq env (round + 1) t cs
      exact ⟨_, by rw [show (⟨_, _, _⟩ : RetrySt).chunks = _ from rfl, hext, hpc,
        List.append_assoc]⟩

theorem retryLoop_success (env : Env) :
    ∀ (fuel round : Nat) (t : List Leaf) (cs : List Chunk) (l : Leaf) (f : Nat),
      l ∈ t → round < f → f ≤ round + fuel →
      (∀ r, round < r → r < f → retrySucc env l.address r = false) →
      retrySucc env l.address f = true →
      (⟨l.index, env.payload l.address⟩ : Chunk) ∈ (retryLoop env fuel round t cs).chunks := by
  intro fuel
  induction fuel with
  | zero => intro round t cs l f _ h1 h2 _ _; omega
  | succ fuel ih =>
    intro round t cs l f hl h1 h2 hfail hsucc
    have ht : t ≠ [] := List.ne_nil_of_mem hl
    rw [retryLoop_succ env fuel round t cs ht]
    obtain ⟨hpc, hpf⟩ := retryPass_eq env (round + 1) t cs
    by_cases hf : f = round + 1
    · subst hf
      have hmem : (⟨l.index, env.payload l.address⟩ : Chunk)
          ∈ (retryPass env (round + 1) t cs).chunks := by
        rw [hpc]
        refine List.mem_append_right _ (List.mem_map.mpr ⟨l, ?_, rfl⟩)
        exact List.mem_filter.mpr ⟨hl, hsucc⟩
      obtain ⟨ext, hext⟩ := retryLoop_chunks_prefix env fuel (round + 1)
        (retryPass env (round + 1) t cs).toRetry (retryPass env (round + 1) t cs).chunks
      show _ ∈ (retryLoop env fuel (round + 1) _ _).chunks
      rw [hext]
      exact List.mem_append_left _ hmem
    · have hlf : retrySucc env l.address (round + 1) = false :=
        hfail (round + 1) (by omega) (by omega)
      have hlmem : l ∈ (retryPass env (round + 1) t cs).toRetry := by
        rw [hpf]
        exact List.mem_filter.mpr ⟨hl, by simp [hlf]⟩
      exact ih (round + 1) _ _ l f hlmem (by omega) (by omega)
        (fun r hr1 hr2 => hfail r (by omega) hr2) hsucc

theorem retryLoop_permanent (env : Env) :
    ∀ (fuel round : Nat) (t : List Leaf) (cs : List Chunk) (l : Leaf),
      l ∈ t → (∀ r, retrySucc env l.address r = false) →
      l ∈ (retryLoop env fuel round t cs).toRetry := by
  intro fuel
  induction fuel with
  | zero => intro round t cs l hl _; simpa [retryLoop_zero] using hl
  | succ fuel ih =>
    intro round t cs l hl hfail
    have ht : t ≠ [] := List.ne_nil_of_mem hl
    rw [retryLoop_succ env fuel round t cs ht]
    obtain ⟨_, hpf⟩ := retryPass_eq env (round + 1) t cs
    have hlmem : l ∈ (retryPass env (round + 1) t cs).toRetry := by
      rw [hpf]
      exact List.mem_filter.mpr ⟨hl, by simp [hfail (round + 1)]⟩
    exact ih (round + 1) _ _ l hlmem hfail

/-- The round-start waits recorded in a trace, in order. -/
def roundWaits (tr : List Ev) : List Nat :=
  tr.filterMap fun e => match e with
    | .roundWait ms => some ms
    | _ => none

theorem roundWaits_append (t₁ t₂ : List Ev) :
    roundWaits (t₁ ++ t₂) = roundWaits t₁ ++ roundWaits t₂ :=
  List.filterMap_append _ _ _

theorem roundWaits_retryPass (env : Env) (r : Nat) (t : List Leaf) (cs : List Chunk) :
    roundWaits (retryPass env r t cs).trace = [] := by
  refine List.filterMap_eq_nil_iff.mpr (fun e he => ?_)
  rcases retryPass_trace_mem env r t cs e he with ⟨l, _, hf⟩ | rfl
  · rcases fetchLoop_trace_mem env l.address r 200 2000 3 0 e hf with
      ⟨j, _, _, rfl⟩ | ⟨j, _, _, rfl⟩ <;> rfl
  · rfl

theorem retryLoop_roundWaits (env : Env) :
    ∀ (fuel round : Nat) (t : List Leaf) (cs : List Chunk),
      ∃ k, k ≤ fuel ∧
        roundWaits (retryLoop env fuel round t cs).trace
          = (List.range' (round + 1) k).map (fun r => 500 * r) ∧
        (k < fuel → (retryLoop env fuel round t cs).toRetry = []) := by
  intro fuel
  induction fuel with
  | zero =>
    intro round t cs
    exact ⟨0, Nat.le_refl _, rfl, fun h => absurd h (by omega)⟩
  | succ fuel ih =>
    intro round t cs
    by_cases ht : t = []
    · subst ht
      exact ⟨0, by omega, by simp [retryLoop_nil, roundWaits], fun _ => by
        simp [retryLoop_nil]⟩
    · rw [retryLoop_succ env fuel round t cs ht]
      obtain ⟨k, hk, heq, himp⟩ := ih (round + 1) (retryPass env (round + 1) t cs).toRetry
        (retryPass env (round + 1) t cs).chunks
      refine ⟨k + 1, by omega, ?_, ?_⟩
      · show roundWaits (Ev.roundWait (500 * (round + 1)) ::
          (retryPass env (round + 1) t cs).trace ++ _) = _
        rw [show (Ev.roundWait (500 * (round + 1)) :: (retryPass env (round + 1) t cs).trace
            ++ (retryLoop env fuel (round + 1) (retryPass env (round + 1) t cs).toRetry
              (retryPass env (round + 1) t cs).chunks).trace)
          = (Ev.roundWait (500 * (round + 1)) :: (retryPass env (round + 1) t cs).trace)
            ++ (retryLoop env fuel (round + 1) (retryPass env (round + 1) t cs).toRetry
              (retryPass env (round + 1) t cs).chunks).trace by simp]
        rw [roundWaits_append]
        show (500 * (round + 1)) :: roundWaits (retryPass env (round + 1) t cs).trace
            ++ _ = _
        rw [roundWaits_retryPass, heq, List.range'_succ]
        rfl
      · intro h
        exact himp (by omega)

theorem retryLoop_leafWaits (env : Env) :
    ∀ (fuel round : Nat) (t : List Leaf) (cs : List Chunk) (ms : Nat),
      Ev.leafWait ms ∈ (retryLoop env fuel round t cs).trace → ms = 100 := by
  intro fuel
  induction fuel with
  | zero => intro round t cs ms h; cases h
  | succ fuel ih =>
    intro round t cs ms h
    by_cases ht : t = []
    · subst ht; rw [retryLoop_nil] at h; cases h
    · rw [retryLoop_succ env fuel round t cs ht] at h
      have h' : Ev.leafWait ms ∈ Ev.roundWait (500 * (round + 1))
          :: ((retryPass env (round + 1) t cs).trace
            ++ (retryLoop env fuel (round + 1) (retryPass env (round + 1) t cs).toRetry
                (retryPass env (round + 1) t cs).chunks).trace) := h
      simp only [List.mem_cons, List.mem_append] at h'
      rcases h' with h' | h' | h'
      · cases h'
      · rcases retryPass_trace_mem env (round + 1) t cs _ h' with ⟨l, _, hf⟩ | he
        · rcases fetchLoop_trace_mem env l.address (round + 1) 200 2000 3 0 _ hf with
            ⟨j, _, _, hcontra⟩ | ⟨j, _, _, hcontra⟩ <;> cases hcontra
        · exact Ev.leafWait.inj he
      · exact ih (round + 1) _ _ ms h'

theorem retryLoop_attempts (env : Env) :
    ∀ (fuel round : Nat) (t : List Leaf) (cs : List Chunk) (a : Bytes) (occ j : Nat),
      Ev.readAttempt a occ j ∈ (retryLoop env fuel round t cs).trace → j < 3 := by
  intro fuel
  induction fuel with
  | zero => intro round t cs a occ j h; cases h
  | succ fuel ih =>
    intro round t cs a occ j h
    by_cases ht : t = []
    · subst ht; rw [retryLoop_nil] at h; cases h
    · rw [retryLoop_succ env fuel round t cs ht] at h
      have h' : Ev.readAttempt a occ j ∈ Ev.roundWait (500 * (round + 1))
          :: ((retryPass env (round + 1) t cs).trace
            ++ (retryLoop env fuel (round + 1) (retryPass env (round + 1) t cs).toRetry
                (retryPass env (round + 1) t cs).chunks).trace) := h
      simp only [List.mem_cons, List.mem_append] at h'
      rcases h' with h' | h' | h'
      · cases h'
      · rcases retryPass_trace_mem env (round + 1) t cs _ h' with ⟨l, _, hf⟩ | he
        · rcases fetchLoop_trace_mem env l.address (round + 1) 200 2000 3 0 _ hf with
            ⟨j', _, hj', he'⟩ | ⟨j', _, _, he'⟩
          · have := Ev.readAttempt.inj he'
            omega
          · cases he'
        · cases he
      · exact ih (round + 1) _ _ a occ j h'

theorem retryFailedChunks_nil (env : Env) (chunks : List Chunk) :
    retryFailedChunks env [] chunks = ⟨chunks, [], []⟩ := by
  simp [retryFailedChunks]

theorem retryFailedChunks_eq (env : Env) (failed : List Leaf) (chunks : List Chunk)
    (h : failed ≠ []) :
    retryFailedChunks env failed chunks =
      ⟨(retryLoop env 5 0 failed chunks).chunks, (retryLoop env 5 0 failed chunks).toRetry,
       (retryLoop env 5 0 failed chunks).trace
         ++ if (retryLoop env 5 0 failed chunks).toRetry ≠ [] then
              [Ev.logPermanentFailures (retryLoop env 5 0 failed chunks).toRetry.length]
            else []⟩ := by
  simp [retryFailedChunks, h]

theorem retryPass_perm_idx (env : Env) (r : Nat) (t : List Leaf) (cs : List Chunk) :
    ((retryPass env r t cs).chunks.map Chunk.index
      ++ (retryPass env r t cs).toRetry.map Leaf.index).Perm
      (cs.map Chunk.index ++ t.map Leaf.index) := by
  obtain ⟨hc, hf⟩ := retryPass_eq env r t cs
  rw [hc, hf, List.map_append, List.map_map, List.append_assoc]
  refine List.Perm.append_left _ ?_
  rw [show (Chunk.index ∘ fun l => (⟨l.index, env.payload l.address⟩ : Chunk))
    = Leaf.index from rfl]
  have h := (List.filter_append_perm (fun l => retrySucc env l.address r) t).map Leaf.index
  rwa [List.map_append] at h

theorem retryLoop_perm_idx (env : Env) :
    ∀ (fuel round : Nat) (t : List Leaf) (cs : List Chunk),
      ((retryLoop env fuel round t cs).chunks.map Chunk.index
        ++ (retryLoop env fuel round t cs).toRetry.map Leaf.index).Perm
        (cs.map Chunk.index ++ t.map Leaf.index) := by
  intro fuel
  induction fuel with
  | zero => intro round t cs; rw [retryLoop_zero]
  | succ fuel ih =>
    intro round t cs
    by_cases ht : t = []
    · subst ht; rw [retryLoop_nil]
    · rw [retryLoop_succ env fuel round t cs ht]
      exact (ih (round + 1) _ _).trans (retryPass_perm_idx env (round + 1) t cs)

theorem retryFailedChunks_perm_idx (env : Env) (failed : List Leaf) (chunks : List Chunk) :
    ((retryFailedChunks env failed chunks).chunks.map Chunk.index
      ++ (retryFailedChunks env failed chunks).toRetry.map Leaf.index).Perm
      (chunks.map Chunk.index ++ failed.map Leaf.index) := by
  by_cases h : failed = []
  · subst h; rw [retryFailedChunks_nil]
  · rw [retryFailedChunks_eq env failed chunks h]
    exact retryLoop_perm_idx env 5 0 failed chunks

/-! ## Unfolding the top-level loader -/

theorem fetchTreeSequential_ok (env : Env) (um : Bool) (bs : Nat) (root : Bytes)
    (depth : Nat) (leaves : List Leaf)
    (h : collectLeafAddresses env root depth = .ok leaves) :
    fetchTreeSequential env um bs root depth =
      (.ok ((sortChunks (retryFailedChunks env
          (loadChunksInBatches env um bs leaves).failed
          (loadChunksInBatches env um bs leaves).chunks).chunks).map Chunk.data).flatten,
       (loadChunksInBatches env um bs leaves).trace
         ++ (retryFailedChunks env (loadChunksInBatches env um bs leaves).failed
              (loadChunksInBatches env um bs leaves).chunks).trace) := by
  unfold fetchTreeSequential
  rw [h]

theorem fetchTreeSequential_err (env : Env) (um : Bool) (bs : Nat) (root : Bytes)
    (depth : Nat) (e : String)
    (h : collectLeafAddresses env root depth = .error e) :
    fetchTreeSequential env um bs root depth = (.error e, []) := by
  unfold fetchTreeSequential
  rw [h]

/-! ## Trace lemmas for the individual fallback -/

theorem fetchChunksIndividuallyG_trace_mem (env : Env) (occ retries base cap : Nat) :
    ∀ (addrs : List Bytes) (e : Ev), e ∈ (fetchChunksIndividuallyG env occ retries base cap addrs).2 →
      ∃ a ∈ addrs, e ∈ (fetchLoop env a occ base cap 0 retries).2 := by
  intro addrs
  induction addrs with
  | nil => intro e h; cases h
  | cons a rest ih =>
    intro e h
    have h' : e ∈ (fetchLoop env a occ base cap 0 retries).2
        ++ (fetchChunksIndividuallyG env occ retries base cap rest).2 := h
    rcases List.mem_append.mp h' with h1 | h1
    · exact ⟨a, List.mem_cons_self _ _, h1⟩
    · obtain ⟨a', ha', he⟩ := ih e h1
      exact ⟨a', List.mem_cons_of_mem _ ha', he⟩

/-! ## Lemmas about the sort -/

theorem sortChunks_of_sorted :
    ∀ cs : List Chunk, (cs.map Chunk.index).Pairwise (· < ·) → sortChunks cs = cs := by
  intro cs
  induction cs with
  | nil => intro _; rfl
  | cons c cs ih =>
    intro h
    rw [List.map_cons, List.pairwise_cons] at h
    obtain ⟨hc, htail⟩ := h
    show insertChunk c (sortChunks cs) = c :: cs
    rw [ih htail]
    cases cs with
    | nil => rfl
    | cons d ds =>
      have : ¬ d.index ≤ c.index := by
        have := hc d.index (by simp)
        omega
      simp [insertChunk, this]

theorem fetchChunkData_backoff_values (env : Env) (a : Bytes) (occ : Nat) (ms : Nat)
    (h : Ev.readBackoff ms ∈ (fetchChunkData env a occ 3).2) : ms = 200 ∨ ms = 400 := by
  rcases fetchLoop_trace_mem env a occ 200 2000 3 0 _ h with ⟨j, _, _, he⟩ | ⟨j, _, hj, he⟩
  · cases he
  · have hv := Ev.readBackoff.inj he
    have hj2 : j < 2 := by omega
    interval_cases j
    · left; rw [hv]; norm_num
    · right; rw [hv]; norm_num

/-! ## Concrete witness environments

A small fixed tree over 20-byte addresses: `wAddr 0` is the depth-2
root with children `wAddr 1` (holding leaves `wAddr 3`, `wAddr 4`) and
`wAddr 2` (holding leaf `wAddr 5`); the leaf payloads chunk the content
`[1, 2, 3, 4, 5]` with chunk size 2. -/

def wAddr (n : Nat) : Bytes := List.replicate 19 0 ++ [n]

def wPayload : Bytes → Bytes := fun a =>
  if a = wAddr 0 then wAddr 1 ++ wAddr 2
  else if a = wAddr 1 then wAddr 3 ++ wAddr 4
  else if a = wAddr 2 then wAddr 5
  else if a = wAddr 3 then [1, 2]
  else if a = wAddr 4 then [3, 4]
  else if a = wAddr 5 then [5]
  else []

/-- The error-free network over the witness tree. -/
def wEnv : Env := ⟨wPayload, fun _ _ _ => false, fun _ _ => false, fun _ _ => false⟩

/-- Same payloads, but every first read attempt fails transiently
(different network timing). -/
def wEnvJitter : Env := ⟨wPayload, fun _ _ i => decide (i = 0), fun _ _ => false,
  fun _ _ => false⟩

theorem wStores : Stores wPayload (wAddr 0) 2 [wAddr 3, wAddr 4, wAddr 5] := by
  have h3 : Stores wPayload (wAddr 1) 1 [wAddr 3, wAddr 4] :=
    Stores.node (wAddr 1) 0 [wAddr 3, wAddr 4] [[wAddr 3], [wAddr 4]]
      (by decide) (by decide) rfl
      (by
        intro i hi
        have hi2 : i < 2 := by simpa using hi
        interval_cases i
        · exact Stores.leaf (wAddr 3)
        · exact Stores.leaf (wAddr 4))
  have h5 : Stores wPayload (wAddr 2) 1 [wAddr 5] :=
    Stores.node (wAddr 2) 0 [wAddr 5] [[wAddr 5]]
      (by decide) (by decide) rfl
      (by
        intro i hi
        have hi2 : i < 1 := by simpa using hi
        interval_cases i
        exact Stores.leaf (wAddr 5))
  exact Stores.node (wAddr 0) 1 [wAddr 1, wAddr 2] [[wAddr 3, wAddr 4], [wAddr 5]]
    (by decide) (by decide) rfl
    (by
      intro i hi
      have hi2 : i < 2 := by simpa using hi
      interval_cases i
      · exact h3
      · exact h5)

/-! ## The claims -/

/-- C2: for any byte content split into fixed-size chunks and arranged
into an address tree of declared depth `d` (any `d`, covering 0, 1 and
≥ 2), running discovery, batch fetch and assembly against an error-free
remote reader reproduces the original byte sequence exactly: the result
is `.ok content`, the concatenation of the leaf payloads in leaf-index
order. -/
theorem roundtrip_reproduces_content (env : Env) (um : Bool) (bs csz : Nat)
    (root : Bytes) (d : Nat) (ls : List Bytes) (content : Bytes)
    (hstores : Stores env.payload root d ls)
    (hfree : errFree env)
    (hbs : 1 ≤ bs) (hcsz : 1 ≤ csz)
    (hchunks : ls.map env.payload = chunkList csz content) :
    (fetchTreeSequential env um bs root d).1 = .ok content := by
  obtain ⟨hrf, haf, hsf⟩ := hfree
  rw [fetchTreeSequential_ok env um bs root d (mkLeavesFrom 0 ls)
    (collectLeafAddresses_errFree env hrf root d ls hstores)]
  obtain ⟨hc, hf⟩ := loadChunksInBatches_errFree env um bs hbs ⟨hrf, haf, hsf⟩
    (mkLeavesFrom 0 ls)
  show Except.ok (((sortChunks (retryFailedChunks env
      (loadChunksInBatches env um bs (mkLeavesFrom 0 ls)).failed
      (loadChunksInBatches env um bs (mkLeavesFrom 0 ls)).chunks).chunks).map
        Chunk.data).flatten) = _
  rw [hf, retryFailedChunks_nil env (loadChunksInBatches env um bs (mkLeavesFrom 0 ls)).chunks]
  show Except.ok (((sortChunks (loadChunksInBatches env um bs
      (mkLeavesFrom 0 ls)).chunks).map Chunk.data).flatten) = _
  rw [hc]
  have hsorted : (((mkLeavesFrom 0 ls).map
      (fun l => (⟨l.index, env.payload l.address⟩ : Chunk))).map Chunk.index).Pairwise
      (· < ·) := by
    rw [List.map_map, show (Chunk.index ∘ fun l =>
        (⟨l.index, env.payload l.address⟩ : Chunk)) = Leaf.index from rfl,
      mkLeavesFrom_map_index]
    exact List.pairwise_lt_range' 0 ls.length
  rw [sortChunks_of_sorted _ hsorted, List.map_map,
    show (Chunk.data ∘ fun l => (⟨l.index, env.payload l.address⟩ : Chunk))
      = (env.payload ∘ Leaf.address) from rfl,
    ← List.map_map, mkLeavesFrom_map_address, hchunks,
    flatten_chunkList csz (by omega) content]

/-- C2 witness: the depth-2 witness tree chunks `[1, 2, 3, 4, 5]` into
three pieces of size 2 and the loader reassembles it exactly. -/
theorem roundtrip_reproduces_content_witness :
    (fetchTreeSequential wEnv true 100 (wAddr 0) 2).1 = .ok [1, 2, 3, 4, 5] :=
  roundtrip_reproduces_content wEnv true 100 2 (wAddr 0) 2
    [wAddr 3, wAddr 4, wAddr 5] [1, 2, 3, 4, 5] wStores
    ⟨fun _ _ _ => rfl, fun _ _ => rfl, fun _ _ => rfl⟩ (by omega) (by omega) (by decide)

/-- C3: for a fixed tree (fixed addresses and branching data), discovery
returns the leaf descriptors in depth-first left-to-right order with the
sequential 0-based indices `0..n-1` assigned by the threaded counter, and
any two runs over the same payloads (any transient-failure timing) that
succeed return the same list. -/
theorem discovery_deterministic_ordered (env env' : Env) (root : Bytes) (d : Nat)
    (ls : List Bytes) (leaves leaves' : List Leaf)
    (hstores : Stores env.payload root d ls) :
    (collectLeafAddresses env root d = .ok leaves →
      leaves = mkLeavesFrom 0 ls ∧
      leaves.map Leaf.index = List.range ls.length ∧
      leaves.map Leaf.address = ls) ∧
    (env'.payload = env.payload →
      collectLeafAddresses env root d = .ok leaves →
      collectLeafAddresses env' root d = .ok leaves' →
      leaves' = leaves) := by
  constructor
  · intro h
    have he := collectLeafAddresses_ok env root d ls hstores leaves h
    refine ⟨he, ?_, ?_⟩
    · rw [he, mkLeavesFrom_map_index, List.range_eq_range']
    · rw [he, mkLeavesFrom_map_address]
  · intro hp h h'
    have he := collectLeafAddresses_ok env root d ls hstores leaves h
    have hstores' : Stores env'.payload root d ls := by rw [hp]; exact hstores
    have he' := collectLeafAddresses_ok env' root d ls hstores' leaves' h'
    rw [he, he']

/-- C3 witness: on the witness tree, an error-free run and a run in
which every first attempt fails transiently both discover
`[(0, wAddr 3), (1, wAddr 4), (2, wAddr 5)]`, whose indices are
`range 3`. -/
theorem discovery_deterministic_ordered_witness :
    ([⟨0, wAddr 3⟩, ⟨1, wAddr 4⟩, ⟨2, wAddr 5⟩] : List Leaf).map Leaf.index
        = List.range [wAddr 3, wAddr 4, wAddr 5].length ∧
    ([⟨0, wAddr 3⟩, ⟨1, wAddr 4⟩, ⟨2, wAddr 5⟩] : List Leaf)
        = [⟨0, wAddr 3⟩, ⟨1, wAddr 4⟩, ⟨2, wAddr 5⟩] := by
  have h := discovery_deterministic_ordered wEnv wEnvJitter (wAddr 0) 2
    [wAddr 3, wAddr 4, wAddr 5]
    [⟨0, wAddr 3⟩, ⟨1, wAddr 4⟩, ⟨2, wAddr 5⟩]
    [⟨0, wAddr 3⟩, ⟨1, wAddr 4⟩, ⟨2, wAddr 5⟩] wStores
  exact ⟨(h.1 (by rfl)).2.1, h.2 rfl (by rfl) (by rfl)⟩

/-- C6: a branch node whose read fails all of its 3 local attempts
aborts discovery entirely — the traversal from the root returns an
error, not a partial leaf list; leaf nodes (depth 0) involve no fetch
during discovery, so a leaf-payload failure cannot abort it; and the
node-read retry loop makes at most 3 attempts with exponential backoff
200 ms, 400 ms (each `min (200 * 2^i) 2000`, so capped at 2 s). -/
theorem discovery_branch_failure_aborts (env : Env) (root : Bytes) (d : Nat)
    (b : Bytes) (k : Nat)
    (hv : VisitsB env root d b (k + 1))
    (hfail : ∀ i, i < 3 → env.readFails b 0 i = true) :
    collectLeafAddresses env root d = .error "fetch failed" ∧
    (∀ ctr, traverseNodeCtr env d root ctr = .error "fetch failed") ∧
    (∀ a ctr, traverseNodeCtr env 0 a ctr = .ok ([⟨ctr, a⟩], ctr + 1)) ∧
    ((fetchChunkData env b 0 3).2.countP isReadAttempt ≤ 3) ∧
    (∀ ms, Ev.readBackoff ms ∈ (fetchChunkData env b 0 3).2 →
      (ms = 200 ∨ ms = 400) ∧ ms ≤ 2000) := by
  have habort := visits_fail_aborts env root d b k hv hfail
  refine ⟨?_, habort, fun a ctr => traverseNodeCtr_zero env a ctr,
    fetchLoop_attempts_le env b 0 200 2000 3 0,
    fun ms hms => ⟨fetchChunkData_backoff_values env b 0 ms hms, ?_⟩⟩
  · unfold collectLeafAddresses
    rw [habort 0]
    rfl
  · rcases fetchChunkData_backoff_values env b 0 ms hms with h | h <;> omega

/-- C6 witness: over the witness tree with the branch node `wAddr 1`
unreadable, discovery of the whole tree fails. -/
theorem discovery_branch_failure_aborts_witness :
    collectLeafAddresses
        ⟨wPayload, fun a _ _ => decide (a = wAddr 1), fun _ _ => false, fun _ _ => false⟩
        (wAddr 0) 2 = .error "fetch failed" :=
  (discovery_branch_failure_aborts
    ⟨wPayload, fun a _ _ => decide (a = wAddr 1), fun _ _ => false, fun _ _ => false⟩
    (wAddr 0) 2 (wAddr 1) 0
    (VisitsB.step (wAddr 0) 1 (wAddr 1) VisitsB.refl ⟨0, by omega, by decide⟩ (by decide))
    (fun i _ => rfl)).1

/-- C10: across the batch-load phase and all retry rounds, each leaf
index contributes at most one entry to the collected chunk list: if the
discovered leaves carry distinct indices, the final chunk list carries
distinct indices, so no leaf payload is assembled twice. -/
theorem collected_chunks_nodup (env : Env) (um : Bool) (bs : Nat) (hbs : 1 ≤ bs)
    (leaves : List Leaf) (hnd : (leaves.map Leaf.index).Nodup) :
    ((retryFailedChunks env (loadChunksInBatches env um bs leaves).failed
        (loadChunksInBatches env um bs leaves).chunks).chunks.map Chunk.index).Nodup := by
  have h2 := retryFailedChunks_perm_idx env (loadChunksInBatches env um bs leaves).failed
    (loadChunksInBatches env um bs leaves).chunks
  have h3 := (h2.trans (loadChunksInBatches_perm env um bs hbs leaves)).nodup_iff.mpr hnd
  exact h3.of_append_left

/-- C10 witness: with the slot for leaf `wAddr 4` failing in the batch
phase (so it goes through a retry round) the final chunk list still has
no duplicate index. -/
theorem collected_chunks_nodup_witness :
    ((retryFailedChunks
        ⟨wPayload, fun _ _ _ => false, fun _ _ => false, fun a _ => decide (a = wAddr 4)⟩
        (loadChunksInBatches
          ⟨wPayload, fun _ _ _ => false, fun _ _ => false, fun a _ => decide (a = wAddr 4)⟩
          true 100 [⟨0, wAddr 3⟩, ⟨1, wAddr 4⟩, ⟨2, wAddr 5⟩]).failed
        (loadChunksInBatches
          ⟨wPayload, fun _ _ _ => false, fun _ _ => false, fun a _ => decide (a = wAddr 4)⟩
          true 100 [⟨0, wAddr 3⟩, ⟨1, wAddr 4⟩, ⟨2, wAddr 5⟩]).chunks).chunks.map
      Chunk.index).Nodup :=
  collected_chunks_nodup
    ⟨wPayload, fun _ _ _ => false, fun _ _ => false, fun a _ => decide (a = wAddr 4)⟩
    true 100 (by omega) [⟨0, wAddr 3⟩, ⟨1, wAddr 4⟩, ⟨2, wAddr 5⟩] (by decide)

/-- The network for C1's counterexample: the depth-1 tree rooted at
`wAddr 1` (leaves `wAddr 3`, `wAddr 4` holding `[1,2]` and `[3,4]`),
with every read of `wAddr 4` failing: its multicall slot fails and every
single-read attempt fails, in the batch phase and every retry round. -/
def envC1 : Env := ⟨wPayload, fun a _ _ => decide (a = wAddr 4), fun _ _ => false,
  fun a _ => decide (a = wAddr 4)⟩

/-- C1 counterexample: leaf index 1 never reaches Success — it is still
in the retry queue after the final round — yet `fetchTreeSequential`
returns `.ok [1, 2]`, the truncated buffer built from the one successful
leaf (the full content is `[1, 2, 3, 4]`), rather than failing with an
`IncompleteContentError{missingIndices}`; no such error exists in the
code. -/
theorem assemble_silent_truncation_cex :
    (fetchTreeSequential envC1 true 100 (wAddr 1) 1).1 = .ok [1, 2] ∧
    collectLeafAddresses envC1 (wAddr 1) 1 = .ok [⟨0, wAddr 3⟩, ⟨1, wAddr 4⟩] ∧
    (retryFailedChunks envC1
      (loadChunksInBatches envC1 true 100 [⟨0, wAddr 3⟩, ⟨1, wAddr 4⟩]).failed
      (loadChunksInBatches envC1 true 100 [⟨0, wAddr 3⟩, ⟨1, wAddr 4⟩]).chunks).toRetry
      = [⟨1, wAddr 4⟩] :=
  ⟨rfl, rfl, rfl⟩

/-- C1 as amended: the loader never raises an incomplete-content error.
Whenever discovery succeeds, `fetchTreeSequential` returns `.ok` of the
concatenation (in index order) of exactly the chunks that reached
Success; when leaves remain permanently failed it logs their count
(`logPermanentFailures`), but the return value carries no failure
information and is the truncated buffer. -/
theorem loader_returns_available_chunks (env : Env) (um : Bool) (bs : Nat) (root : Bytes)
    (d : Nat) (leaves : List Leaf)
    (h : collectLeafAddresses env root d = .ok leaves) :
    (fetchTreeSequential env um bs root d).1
        = .ok ((sortChunks (retryFailedChunks env
            (loadChunksInBatches env um bs leaves).failed
            (loadChunksInBatches env um bs leaves).chunks).chunks).map Chunk.data).flatten
      ∧ ((retryFailedChunks env (loadChunksInBatches env um bs leaves).failed
            (loadChunksInBatches env um bs leaves).chunks).toRetry ≠ [] →
          Ev.logPermanentFailures (retryFailedChunks env
            (loadChunksInBatches env um bs leaves).failed
            (loadChunksInBatches env um bs leaves).chunks).toRetry.length
            ∈ (fetchTreeSequential env um bs root d).2) := by
  rw [fetchTreeSequential_ok env um bs root d leaves h]
  refine ⟨rfl, fun hne => ?_⟩
  refine List.mem_append_right _ ?_
  by_cases hf : (loadChunksInBatches env um bs leaves).failed = []
  · rw [hf, retryFailedChunks_nil] at hne
    exact absurd rfl hne
  · have hne' : (retryLoop env 5 0 (loadChunksInBatches env um bs leaves).failed
        (loadChunksInBatches env um bs leaves).chunks).toRetry ≠ [] := by
      rw [retryFailedChunks_eq env _ _ hf] at hne
      exact hne
    rw [retryFailedChunks_eq env _ _ hf]
    show Ev.logPermanentFailures _ ∈ (retryLoop env 5 0 _ _).trace ++ _
    refine List.mem_append_right _ ?_
    rw [if_pos hne']
    exact List.mem_singleton.mpr rfl

/-- C1 amended witness: on the counterexample network the theorem's
conclusion instantiates to the truncated `.ok [1, 2]` plus the logged
permanent-failure count. -/
theorem loader_returns_available_chunks_witness :
    ((fetchTreeSequential envC1 true 100 (wAddr 1) 1).1
        = .ok ((sortChunks (retryFailedChunks envC1
            (loadChunksInBatches envC1 true 100 [⟨0, wAddr 3⟩, ⟨1, wAddr 4⟩]).failed
            (loadChunksInBatches envC1 true 100 [⟨0, wAddr 3⟩, ⟨1, wAddr 4⟩]).chunks).chunks).map
              Chunk.data).flatten)
      ∧ ((retryFailedChunks envC1
            (loadChunksInBatches envC1 true 100 [⟨0, wAddr 3⟩, ⟨1, wAddr 4⟩]).failed
            (loadChunksInBatches envC1 true 100 [⟨0, wAddr 3⟩, ⟨1, wAddr 4⟩]).chunks).toRetry ≠ [] →
          Ev.logPermanentFailures (retryFailedChunks envC1
            (loadChunksInBatches envC1 true 100 [⟨0, wAddr 3⟩, ⟨1, wAddr 4⟩]).failed
            (loadChunksInBatches envC1 true 100 [⟨0, wAddr 3⟩, ⟨1, wAddr 4⟩]).chunks).toRetry.length
            ∈ (fetchTreeSequential envC1 true 100 (wAddr 1) 1).2) :=
  loader_returns_available_chunks envC1 true 100 (wAddr 1) 1 [⟨0, wAddr 3⟩, ⟨1, wAddr 4⟩] rfl

/-- The network for C4's counterexample: a depth-0 load whose single
leaf (the root itself) fails every fetch, in the batch phase and in
every retry round. -/
def envC4 : Env := ⟨(fun _ => []), fun _ _ _ => true, fun _ _ => false, fun _ _ => true⟩

/-- C4 counterexample: the always-failing leaf does remain in the
permanent-failure set after exactly 5 rounds with waits
`500·r` (the retry mechanics of the claim hold), but it is NOT surfaced
to the caller: the loader's return value is a plain `.ok []` carrying no
failure information — the permanent failures are only logged. -/
theorem retry_permanent_not_surfaced_cex :
    (retryFailedChunks envC4 [⟨0, wAddr 0⟩] []).toRetry = [⟨0, wAddr 0⟩] ∧
    roundWaits (retryFailedChunks envC4 [⟨0, wAddr 0⟩] []).trace
      = [500, 1000, 1500, 2000, 2500] ∧
    (fetchTreeSequential envC4 true 100 (wAddr 0) 0).1 = .ok [] :=
  ⟨rfl, rfl, rfl⟩

/-- C4 as amended: the Retry Coordinator runs at most 5 rounds, waiting
`500 ms × r` before round `r`; each still-failed leaf gets one
`fetchChunkData` call of at most 3 attempts per round, with a 100 ms
pause after each leaf; a round's pass keeps exactly the leaves whose
fetch failed; a leaf whose per-round fetches fail before round `f` and
succeed at round `f ≤ 5` ends in the Success chunks; a leaf that always
fails remains in the permanent-failure set after exactly 5 rounds and
its count is logged — but the set is not returned to the caller (see the
counterexample). -/
theorem retry_coordinator_spec (env : Env) (failed : List Leaf) (chunks : List Chunk) :
    roundWaits (retryFailedChunks env failed chunks).trace
        <+: [500, 1000, 1500, 2000, 2500] ∧
    (∀ ms, Ev.leafWait ms ∈ (retryFailedChunks env failed chunks).trace → ms = 100) ∧
    (∀ a occ j, Ev.readAttempt a occ j ∈ (retryFailedChunks env failed chunks).trace →
      j < 3) ∧
    (∀ r t cs, (retryPass env r t cs).toRetry
      = t.filter (fun l => !(retrySucc env l.address r))) ∧
    (∀ l, l ∈ failed → ∀ f, 1 ≤ f → f ≤ 5 →
      (∀ r, 1 ≤ r → r < f → retrySucc env l.address r = false) →
      retrySucc env l.address f = true →
      (⟨l.index, env.payload l.address⟩ : Chunk)
        ∈ (retryFailedChunks env failed chunks).chunks) ∧
    (∀ l, l ∈ failed → (∀ r, retrySucc env l.address r = false) →
      l ∈ (retryFailedChunks env failed chunks).toRetry ∧
      roundWaits (retryFailedChunks env failed chunks).trace
        = [500, 1000, 1500, 2000, 2500] ∧
      Ev.logPermanentFailures (retryFailedChunks env failed chunks).toRetry.length
        ∈ (retryFailedChunks env failed chunks).trace) := by
  by_cases hf : failed = []
  · subst hf
    rw [retryFailedChunks_nil]
    refine ⟨⟨_, rfl⟩, ?_, ?_, ?_, ?_, ?_⟩
    · intro ms h; cases h
    · intro a occ j h; cases h
    · intro r t cs; exact (retryPass_eq env r t cs).2
    · intro l hl; cases hl
    · intro l hl; cases hl
  · rw [retryFailedChunks_eq env failed chunks hf]
    have htrace : ∀ e : Ev, e ∈ (retryLoop env 5 0 failed chunks).trace
          ++ (if (retryLoop env 5 0 failed chunks).toRetry ≠ [] then
              [Ev.logPermanentFailures (retryLoop env 5 0 failed chunks).toRetry.length]
            else []) →
        e ∈ (retryLoop env 5 0 failed chunks).trace ∨
        e = Ev.logPermanentFailures (retryLoop env 5 0 failed chunks).toRetry.length := by
      intro e he
      rcases List.mem_append.mp he with h1 | h1
      · exact Or.inl h1
      · right
        by_cases hc : (retryLoop env 5 0 failed chunks).toRetry ≠ []
        · rw [if_pos hc] at h1
          exact List.mem_singleton.mp h1
        · rw [if_neg hc] at h1
          cases h1
    obtain ⟨k, hk, hkeq, hkimp⟩ := retryLoop_roundWaits env 5 0 failed chunks
    refine ⟨?_, ?_, ?_, ?_, ?_, ?_⟩
    · show roundWaits ((retryLoop env 5 0 failed chunks).trace ++ _) <+: _
      rw [roundWaits_append,
        show roundWaits (if (retryLoop env 5 0 failed chunks).toRetry ≠ [] then
            [Ev.logPermanentFailures (retryLoop env 5 0 failed chunks).toRetry.length]
          else []) = [] by split <;> rfl,
        List.append_nil, hkeq]
      interval_cases k
      · exact ⟨_, rfl⟩
      · exact ⟨_, rfl⟩
      · exact ⟨_, rfl⟩
      · exact ⟨_, rfl⟩
      · exact ⟨_, rfl⟩
      · exact ⟨_, rfl⟩
    · intro ms h
      rcases htrace _ h with h1 | h1
      · exact retryLoop_leafWaits env 5 0 failed chunks ms h1
      · cases h1
    · intro a occ j h
      rcases htrace _ h with h1 | h1
      · exact retryLoop_attempts env 5 0 failed chunks a occ j h1
      · cases h1
    · intro r t cs; exact (retryPass_eq env r t cs).2
    · intro l hl f h1 h5 hfb hfs
      exact retryLoop_success env 5 0 failed chunks l f hl (by omega) (by omega)
        (fun r hr1 hr2 => hfb r (by omega) hr2) hfs
    · intro l hl hall
      have hmem : l ∈ (retryLoop env 5 0 failed chunks).toRetry :=
        retryLoop_permanent env 5 0 failed chunks l hl hall
      have hne : (retryLoop env 5 0 failed chunks).toRetry ≠ [] :=
        List.ne_nil_of_mem hmem
      refine ⟨hmem, ?_, ?_⟩
      · show roundWaits ((retryLoop env 5 0 failed chunks).trace ++ _) = _
        rw [roundWaits_append,
          show roundWaits (if (retryLoop env 5 0 failed chunks).toRetry ≠ [] then
              [Ev.logPermanentFailures (retryLoop env 5 0 failed chunks).toRetry.length]
            else []) = [] by split <;> rfl,
          List.append_nil, hkeq]
        have hk5 : k = 5 := by
          by_contra hca
          exact hne (hkimp (by omega))
        subst hk5
        rfl
      · show Ev.logPermanentFailures _ ∈ (retryLoop env 5 0 failed chunks).trace ++ _
        refine List.mem_append_right _ ?_
        rw [if_pos hne]
        exact List.mem_singleton.mpr rfl

/-- The network for C4's witness: leaf `wAddr 3` fails in rounds 1 and 2
and succeeds in round 3; leaf `wAddr 4` always fails. -/
def envW4 : Env := ⟨(fun _ => [9, 9]),
  fun a r _ => if a = wAddr 4 then true else decide (r ≤ 2),
  fun _ _ => false, fun _ _ => false⟩

/-- C4 amended witness: the recovering leaf ends in the Success chunks,
the always-failing leaf is in the permanent set after the full
`[500, …, 2500]` wait schedule. -/
theorem retry_coordinator_spec_witness :
    ((⟨0, [9, 9]⟩ : Chunk)
        ∈ (retryFailedChunks envW4 [⟨0, wAddr 3⟩, ⟨1, wAddr 4⟩] []).chunks) ∧
    ((⟨1, wAddr 4⟩ : Leaf)
        ∈ (retryFailedChunks envW4 [⟨0, wAddr 3⟩, ⟨1, wAddr 4⟩] []).toRetry) ∧
    roundWaits (retryFailedChunks envW4 [⟨0, wAddr 3⟩, ⟨1, wAddr 4⟩] []).trace
      = [500, 1000, 1500, 2000, 2500] := by
  have h := retry_coordinator_spec envW4 [⟨0, wAddr 3⟩, ⟨1, wAddr 4⟩] []
  refine ⟨?_, ?_, ?_⟩
  · exact h.2.2.2.2.1 ⟨0, wAddr 3⟩ (by decide) 3 (by omega) (by omega)
      (fun r h1 h2 => by interval_cases r <;> rfl) rfl
  · exact (h.2.2.2.2.2 ⟨1, wAddr 4⟩ (by decide) (fun r => rfl)).1
  · exact (h.2.2.2.2.2 ⟨1, wAddr 4⟩ (by decide) (fun r => rfl)).2.1

/-- The network for C5's counterexample: the aggregate call always fails
at the transport level and every single read fails too. -/
def envC5 : Env := ⟨(fun _ => [7]), fun _ _ _ => true, fun _ _ => true, fun _ _ => false⟩

/-- C5 counterexample: in the batch-load phase — which invokes
`fetchChunksBatch(batchAddresses, 2)` (loader.js:376) — an always
transport-failing aggregate call is attempted exactly twice (attempts 0
and 1, never 2) before falling back, and the fallback individual read of
the one address is likewise attempted exactly twice (never a third
attempt), contradicting the claimed "up to 3 times" budget for both. -/
theorem batch_retry_budget_cex :
    (Ev.aggAttempt 0 0 ∈ (loadChunksInBatches envC5 true 100 [⟨0, wAddr 3⟩]).trace) ∧
    (Ev.aggAttempt 0 1 ∈ (loadChunksInBatches envC5 true 100 [⟨0, wAddr 3⟩]).trace) ∧
    ¬(Ev.aggAttempt 0 2 ∈ (loadChunksInBatches envC5 true 100 [⟨0, wAddr 3⟩]).trace) ∧
    (Ev.readAttempt (wAddr 3) 0 0 ∈ (loadChunksInBatches envC5 true 100 [⟨0, wAddr 3⟩]).trace) ∧
    (Ev.readAttempt (wAddr 3) 0 1 ∈ (loadChunksInBatches envC5 true 100 [⟨0, wAddr 3⟩]).trace) ∧
    ¬(Ev.readAttempt (wAddr 3) 0 2 ∈ (loadChunksInBatches envC5 true 100 [⟨0, wAddr 3⟩]).trace) := by
  decide

/-- C5 as amended: for a non-empty group with aggregation enabled, the
Batch Fetcher issues one aggregated read per attempt and retries the
whole batch call up to the `retries` budget — which the loader pipeline
passes as 2, not 3 (the function's unused default is 3) — with backoff
`300 × 2^attempt` capped at 3000 ms; only after exhausting those
attempts (or when aggregation is disabled) does it fall back to fetching
every address individually and sequentially, each with the same
`retries`-attempt budget (2 in the pipeline). -/
theorem batch_fetcher_fallback_spec (env : Env) (occ : Nat) (addrs : List Bytes)
    (hne : addrs ≠ []) :
    ((∀ j, j < 2 → env.aggFails occ j = true) →
      fetchChunksBatch env true occ 2 addrs =
        ((fetchChunksIndividuallyG env occ 2 200 2000 addrs).1,
          Ev.aggAttempt occ 0 :: Ev.aggBackoff 300 :: Ev.aggAttempt occ 1
            :: (fetchChunksIndividuallyG env occ 2 200 2000 addrs).2)) ∧
    (env.aggFails occ 0 = false →
      fetchChunksBatch env true occ 2 addrs =
        (addrs.map fun a => if env.slotFails a occ then none else some (env.payload a),
         [Ev.aggAttempt occ 0])) ∧
    (∀ retries, fetchChunksBatch env false occ retries addrs
        = fetchChunksIndividuallyG env occ retries 200 2000 addrs) ∧
    (∀ a j, Ev.readAttempt a occ j
      ∈ (fetchChunksIndividuallyG env occ 2 200 2000 addrs).2 → j < 2) ∧
    (∀ ms, Ev.aggBackoff ms ∈ (fetchChunksBatch env true occ 2 addrs).2 → ms = 300) := by
  refine ⟨?_, ?_, ?_, ?_, ?_⟩
  · intro hall
    unfold fetchChunksBatch fetchChunksBatchG
    rw [if_neg (by simp [hne])]
    rw [show (2 : Nat) = 0 + 2 from rfl,
      fetchBatchLoop_step_fail env addrs occ (0 + 2) 200 2000 0 0 (hall 0 (by omega)),
      fetchBatchLoop_last_fail env addrs occ (0 + 2) 200 2000 1 (hall 1 (by omega))]
    norm_num
  · intro h0
    unfold fetchChunksBatch fetchChunksBatchG
    rw [if_neg (by simp [hne])]
    exact fetchBatchLoop_pass env addrs occ 2 200 2000 0 1 h0
  · intro retries
    unfold fetchChunksBatch fetchChunksBatchG
    rw [if_pos (Or.inl (by simp))]
  · intro a j h
    obtain ⟨a', _, he⟩ := fetchChunksIndividuallyG_trace_mem env occ 2 200 2000 addrs _ h
    rcases fetchLoop_trace_mem env a' occ 200 2000 2 0 _ he with ⟨j', _, hj', heq⟩ | ⟨_, _, _, heq⟩
    · have := Ev.readAttempt.inj heq
      omega
    · cases heq
  · intro ms h
    unfold fetchChunksBatch fetchChunksBatchG at h
    rw [if_neg (by simp [hne])] at h
    by_cases h0 : env.aggFails occ 0
    · by_cases h1 : env.aggFails occ 1
      · rw [show (2 : Nat) = 0 + 2 from rfl,
          fetchBatchLoop_step_fail env addrs occ (0 + 2) 200 2000 0 0 h0,
          fetchBatchLoop_last_fail env addrs occ (0 + 2) 200 2000 1 h1] at h
        have h' : Ev.aggBackoff ms ∈ Ev.aggAttempt occ 0
            :: Ev.aggBackoff (min (300 * 2 ^ 0) 3000) :: Ev.aggAttempt occ 1
            :: (fetchChunksIndividuallyG env occ (0 + 2) 200 2000 addrs).2 := h
        rcases List.mem_cons.mp h' with hc | h''
        · cases hc
        rcases List.mem_cons.mp h'' with hc | h''
        · have := Ev.aggBackoff.inj hc
          omega
        rcases List.mem_cons.mp h'' with hc | h''
        · cases hc
        obtain ⟨a', _, he⟩ := fetchChunksIndividuallyG_trace_mem env occ (0 + 2) 200 2000
          addrs _ h''
        rcases fetchLoop_trace_mem env a' occ 200 2000 (0 + 2) 0 _ he with
          ⟨_, _, _, heq⟩ | ⟨_, _, _, heq⟩ <;> cases heq
      · rw [show (2 : Nat) = 0 + 2 from rfl,
          fetchBatchLoop_step_fail env addrs occ (0 + 2) 200 2000 0 0 h0,
          fetchBatchLoop_pass env addrs occ (0 + 2) 200 2000 1 0
            (Bool.not_eq_true _ ▸ h1)] at h
        have h' : Ev.aggBackoff ms ∈ Ev.aggAttempt occ 0
            :: Ev.aggBackoff (min (300 * 2 ^ 0) 3000) :: [Ev.aggAttempt occ 1] := h
        rcases List.mem_cons.mp h' with hc | h''
        · cases hc
        rcases List.mem_cons.mp h'' with hc | h''
        · have := Ev.aggBackoff.inj hc
          omega
        rcases List.mem_cons.mp h'' with hc | h''
        · cases hc
        · cases h''
    · rw [fetchBatchLoop_pass env addrs occ 2 200 2000 0 1 (Bool.not_eq_true _ ▸ h0)] at h
      have h' : Ev.aggBackoff ms ∈ [Ev.aggAttempt occ 0] := h
      rcases List.mem_cons.mp h' with hc | hc
      · cases hc
      · cases hc

/-- The network for C5's witness: the aggregate transport always fails,
single reads succeed. -/
def envC5w : Env := ⟨(fun _ => [8]), fun _ _ _ => false, fun _ _ => true, fun _ _ => false⟩

/-- C5 amended witness: the always-failing aggregate is retried exactly
twice, then the group is fetched individually; with multicall disabled
the individual path is taken directly. -/
theorem batch_fetcher_fallback_spec_witness :
    (fetchChunksBatch envC5w true 0 2 [wAddr 3] =
      ((fetchChunksIndividuallyG envC5w 0 2 200 2000 [wAddr 3]).1,
        Ev.aggAttempt 0 0 :: Ev.aggBackoff 300 :: Ev.aggAttempt 0 1
          :: (fetchChunksIndividuallyG envC5w 0 2 200 2000 [wAddr 3]).2)) ∧
    (fetchChunksBatch envC5w false 0 2 [wAddr 3]
      = fetchChunksIndividuallyG envC5w 0 2 200 2000 [wAddr 3]) := by
  have h := batch_fetcher_fallback_spec envC5w 0 [wAddr 3] (by simp)
  exact ⟨h.1 (fun j _ => rfl), h.2.2.1 2⟩

/-! ## Lemmas about segment extraction (video loader) -/

theorem flatten_chunkSlice (csz : Nat) (hcsz : 1 ≤ csz) (content : Bytes) :
    ∀ (n cs : Nat),
      ((List.range' cs n).map (fun i => ((chunkList csz content)[i]?).getD [])).flatten
        = (content.drop (cs * csz)).take (n * csz) := by
  intro n
  induction n with
  | zero => intro cs; simp
  | succ n ih =>
    intro cs
    rw [List.range'_succ, List.map_cons, List.flatten_cons, ih (cs + 1),
      chunkList_getElem? csz hcsz cs content]
    by_cases hc : cs * csz < content.length
    · rw [if_pos hc, Option.getD_some]
      have hdd : content.drop ((cs + 1) * csz) = (content.drop (cs * csz)).drop csz := by
        rw [List.drop_drop]
        congr 1
        ring
      rw [hdd, ← List.take_add, show csz + n * csz = (n + 1) * csz by ring]
    · rw [if_neg hc, Option.getD_none]
      have h1 : content.drop (cs * csz) = [] :=
        List.drop_eq_nil_of_le (by omega)
      have h2 : content.drop ((cs + 1) * csz) = [] :=
        List.drop_eq_nil_of_le (by nlinarith [Nat.le_of_not_lt hc])
      rw [h1, h2]
      simp

/-- Ceiling division bound: `a ≤ ((a + b - 1) / b) * b` for `b ≥ 1`. -/
theorem ceil_div_mul_ge (a b : Nat) (hb : 1 ≤ b) : a ≤ ((a + b - 1) / b) * b := by
  have hdm := Nat.div_add_mod (a + b - 1) b
  have hmod := Nat.mod_lt (a + b - 1) (show 0 < b by omega)
  rw [Nat.mul_comm]
  generalize b * ((a + b - 1) / b) = t at hdm
  generalize (a + b - 1) % b = r at hdm hmod
  omega

/-- C9: for a segment produced by `adjustSegmentOffsets` whose covering
chunks `[adjustedChunkStart, adjustedChunkEnd)` are present in the chunk
map and agree with the fixed-size chunking of the assembled content
(every chunk except possibly the last has length exactly the chunk
size), `extractSegmentData` returns exactly the `byteEnd - byteStart`
bytes at absolute offsets
`[byteStart + 4 + headerLength, byteEnd + 4 + headerLength)` of the
assembled content. -/
theorem extractSegmentData_exact (content : Bytes) (csz hl : Nat) (s : Video.AdjSeg)
    (m : Video.ChunkMap)
    (hcsz : 1 ≤ csz)
    (hm : ∀ i, s.adjustedChunkStart ≤ i → i < s.adjustedChunkEnd →
      m i = (chunkList csz content)[i]?)
    (hs : s.adjustedChunkStart = (s.byteStart + (4 + hl)) / csz)
    (he : s.adjustedChunkEnd = (s.byteEnd + (4 + hl) + csz - 1) / csz)
    (hse : s.byteStart ≤ s.byteEnd)
    (hlen : s.byteEnd + (4 + hl) ≤ content.length) :
    Video.extractSegmentData m csz hl s
      = (content.drop (s.byteStart + (4 + hl))).take (s.byteEnd - s.byteStart) := by
  unfold Video.extractSegmentData
  have hmap : (List.range' s.adjustedChunkStart
        (s.adjustedChunkEnd - s.adjustedChunkStart)).map (fun i => (m i).getD [])
      = (List.range' s.adjustedChunkStart
        (s.adjustedChunkEnd - s.adjustedChunkStart)).map
          (fun i => ((chunkList csz content)[i]?).getD []) := by
    refine List.map_congr_left (fun i hi => ?_)
    rw [List.mem_range'_1] at hi
    rw [hm i hi.1 (by omega)]
  dsimp only
  rw [hmap, flatten_chunkSlice csz hcsz content]
  -- abbreviations for the arithmetic
  have hfloor : s.adjustedChunkStart * csz ≤ s.byteStart + (4 + hl) := by
    rw [hs]
    exact Nat.div_mul_le_self _ _
  have hceil : s.byteEnd + (4 + hl) ≤ s.adjustedChunkEnd * csz := by
    rw [he]
    exact ceil_div_mul_ge _ _ hcsz
  have hcle : s.adjustedChunkStart ≤ s.adjustedChunkEnd := by
    rw [hs, he]
    exact Nat.div_le_div_right (by omega)
  rw [List.drop_take]
  rw [List.take_take]
  have hsub : (s.adjustedChunkEnd - s.adjustedChunkStart) * csz
      - (s.byteStart + (4 + hl) - s.adjustedChunkStart * csz)
      = s.adjustedChunkEnd * csz - (s.byteStart + (4 + hl)) := by
    rw [Nat.sub_mul]
    omega
  rw [hsub, List.drop_drop,
    show s.adjustedChunkStart * csz
        + (s.byteStart + (4 + hl) - s.adjustedChunkStart * csz)
      = s.byteStart + (4 + hl) by omega]
  have hW : s.byteEnd - s.byteStart
      ≤ s.adjustedChunkEnd * csz - (s.byteStart + (4 + hl)) := by
    generalize s.adjustedChunkEnd * csz = t at hceil
    omega
  rw [min_eq_left hW]

/-! ## Lemmas about the streaming loop (video loader) -/

namespace Video

/-- Chunk indices of the `appended` events of a trace, in order. -/
def appendedIdxs (tr : List VEv) : List Nat :=
  tr.filterMap fun e => match e with | .appended i => some i | _ => none

theorem appendedIdxs_append (t₁ t₂ : List VEv) :
    appendedIdxs (t₁ ++ t₂) = appendedIdxs t₁ ++ appendedIdxs t₂ :=
  List.filterMap_append t₁ t₂ _

theorem appendedIdxs_arrived_only (tr : List VEv)
    (h : ∀ e ∈ tr, ∃ i, e = VEv.arrived i) : appendedIdxs tr = [] := by
  induction tr with
  | nil => rfl
  | cons e t ih =>
    obtain ⟨i, rfl⟩ := h e (by simp)
    show appendedIdxs t = []
    exact ih (fun e he => h e (by simp [he]))

theorem appendedIdxs_map_appended (l : List (Nat × Bytes)) :
    appendedIdxs (l.map fun p => VEv.appended p.1) = l.map Prod.fst := by
  induction l with
  | nil => rfl
  | cons p t ih =>
    show p.1 :: appendedIdxs (t.map fun p => VEv.appended p.1) = _
    rw [ih, List.map_cons]

theorem arrived_not_mem_map_appended (j : Nat) (l : List (Nat × Bytes)) :
    VEv.arrived j ∉ (l.map fun p => VEv.appended p.1) := by
  intro h
  rw [List.mem_map] at h
  obtain ⟨p, _, hp⟩ := h
  exact VEv.noConfusion hp

/-- `storeResults` stores exactly the successful slots and emits an
`arrived` event for each of them (and nothing else). -/
theorem storeResults_spec (rs : List (Option Bytes)) :
    ∀ (m : ChunkMap) (start : Nat),
      (∀ i, (((storeResults m start rs).1 i).isSome = true ↔
        ((m i).isSome = true ∨ VEv.arrived i ∈ (storeResults m start rs).2))) ∧
      (∀ e ∈ (storeResults m start rs).2, ∃ i, e = VEv.arrived i) := by
  induction rs with
  | nil =>
    intro m start
    exact ⟨fun i => by simp [storeResults], fun e he => by simp [storeResults] at he⟩
  | cons r rs ih =>
    intro m start
    cases r with
    | none =>
      have h := ih m (start + 1)
      exact ⟨fun i => h.1 i, fun e he => h.2 e he⟩
    | some d =>
      have h := ih (fun j => if j = start then some d else m j) (start + 1)
      constructor
      · intro i
        show (((storeResults (fun j => if j = start then some d else m j) (start + 1) rs).1 i).isSome
            = true ↔ _)
        rw [h.1 i]
        show _ ↔ ((m i).isSome = true ∨ VEv.arrived i ∈ VEv.arrived start ::
          (storeResults (fun j => if j = start then some d else m j) (start + 1) rs).2)
        by_cases hi : i = start
        · subst hi
          simp
        · simp only [if_neg hi, List.mem_cons]
          constructor
          · rintro (hm | he)
            · exact Or.inl hm
            · exact Or.inr (Or.inr he)
          · rintro (hm | (heq | he))
            · exact Or.inl hm
            · exact absurd (VEv.arrived.inj heq) hi
            · exact Or.inr he
      · intro e he
        replace he : e ∈ VEv.arrived start ::
          (storeResults (fun j => if j = start then some d else m j) (start + 1) rs).2 := he
        rcases List.mem_cons.mp he with heq | he'
        · exact ⟨start, heq⟩
        · exact h.2 e he'

theorem appendLoop_succ (m : ChunkMap) (csz hl : Nat) (segs : List AdjSeg)
    (next f : Nat) :
    appendLoop m csz hl segs next (f + 1)
      = match segs[next]? with
        | none => ([], [])
        | some s =>
          if isSegmentComplete m s then
            ((next, extractSegmentData m csz hl s)
                :: (appendLoop m csz hl segs (next + 1) f).1,
             VEv.appended next :: (appendLoop m csz hl segs (next + 1) f).2)
          else ([], []) :=
  rfl

theorem appendLoop_none (m : ChunkMap) (csz hl : Nat) (segs : List AdjSeg)
    (next f : Nat) (hn : segs[next]? = none) :
    appendLoop m csz hl segs next (f + 1) = ([], []) := by
  rw [appendLoop_succ]
  simp only [hn]

theorem appendLoop_incomplete (m : ChunkMap) (csz hl : Nat) (segs : List AdjSeg)
    (next f : Nat) (s : AdjSeg) (hn : segs[next]? = some s)
    (hc : isSegmentComplete m s = false) :
    appendLoop m csz hl segs next (f + 1) = ([], []) := by
  rw [appendLoop_succ]
  simp only [hn, hc, Bool.false_eq_true, if_false]

theorem appendLoop_complete (m : ChunkMap) (csz hl : Nat) (segs : List AdjSeg)
    (next f : Nat) (s : AdjSeg) (hn : segs[next]? = some s)
    (hc : isSegmentComplete m s = true) :
    appendLoop m csz hl segs next (f + 1)
      = ((next, extractSegmentData m csz hl s) :: (appendLoop m csz hl segs (next + 1) f).1,
         VEv.appended next :: (appendLoop m csz hl segs (next + 1) f).2) := by
  rw [appendLoop_succ]
  simp only [hn, hc, if_true]

/-- `appendLoop` releases consecutive indices starting at the cursor,
emits exactly one `appended` event per released segment, and releases
only segments that exist and are complete in the current map, with the
extracted data. -/
theorem appendLoop_spec (m : ChunkMap) (csz hl : Nat) (segs : List AdjSeg) :
    ∀ (fuel next : Nat),
      (appendLoop m csz hl segs next fuel).1.map Prod.fst
        = List.range' next (appendLoop m csz hl segs next fuel).1.length ∧
      (appendLoop m csz hl segs next fuel).2
        = (appendLoop m csz hl segs next fuel).1.map (fun p => VEv.appended p.1) ∧
      (∀ p ∈ (appendLoop m csz hl segs next fuel).1,
        ∃ s, segs[p.1]? = some s ∧ isSegmentComplete m s = true ∧
          p.2 = extractSegmentData m csz hl s) := by
  intro fuel
  induction fuel with
  | zero =>
    intro next
    exact ⟨rfl, rfl, fun p hp => by simp [appendLoop] at hp⟩
  | succ f ih =>
    intro next
    cases hn : segs[next]? with
    | none =>
      rw [appendLoop_none m csz hl segs next f hn]
      exact ⟨rfl, rfl, fun p hp => by simp at hp⟩
    | some s =>
      cases hc : isSegmentComplete m s with
      | false =>
        rw [appendLoop_incomplete m csz hl segs next f s hn hc]
        exact ⟨rfl, rfl, fun p hp => by simp at hp⟩
      | true =>
        rw [appendLoop_complete m csz hl segs next f s hn hc]
        obtain ⟨ih1, ih2, ih3⟩ := ih (next + 1)
        refine ⟨?_, ?_, ?_⟩
        · rw [List.map_cons, ih1, List.length_cons, List.range'_succ]
        · rw [List.map_cons, ih2]
        · intro p hp
          rcases List.mem_cons.mp hp with heq | hmem
          · subst heq
            exact ⟨s, hn, hc, rfl⟩
          · exact ih3 p hmem

/-- Splitting an element out of a three-part concatenation: the element
sits in the first, second or third part, and in each case the prefix of
the split is located. -/
theorem mem_split_three {α : Type} (l₁ l₂ l₃ t₁ t₂ : List α) (e : α)
    (h : l₁ ++ l₂ ++ l₃ = t₁ ++ e :: t₂) :
    (∃ u, l₁ = t₁ ++ e :: u) ∨
    (∃ u v, l₂ = u ++ e :: v ∧ t₁ = l₁ ++ u) ∨
    (∃ u v, l₃ = u ++ e :: v ∧ t₁ = l₁ ++ l₂ ++ u) := by
  rw [List.append_assoc, List.append_eq_append_iff] at h
  rcases h with ⟨a, ha, hb⟩ | ⟨c, hc, hd⟩
  · -- t₁ = l₁ ++ a and l₂ ++ l₃ = a ++ e :: t₂
    rw [List.append_eq_append_iff] at hb
    rcases hb with ⟨a₂, ha₂, hb₂⟩ | ⟨c₂, hc₂, hd₂⟩
    · -- a = l₂ ++ a₂ and l₃ = a₂ ++ e :: t₂
      refine Or.inr (Or.inr ⟨a₂, t₂, hb₂, ?_⟩)
      rw [ha, ha₂, List.append_assoc]
    · -- l₂ = a ++ c₂ and e :: t₂ = c₂ ++ l₃
      cases c₂ with
      | nil =>
        refine Or.inr (Or.inr ⟨[], t₂, ?_, ?_⟩)
        · rw [List.nil_append] at hd₂
          rw [← hd₂]
          rfl
        · rw [ha, List.append_nil]
          rw [List.append_nil] at hc₂
          rw [hc₂]
      | cons x xs =>
        obtain ⟨hx, ht⟩ := List.cons_eq_cons.mp hd₂
        refine Or.inr (Or.inl ⟨a, xs, ?_, ha⟩)
        rw [hc₂, hx]
  · cases c with
    | nil =>
      -- l₁ = t₁ and e :: t₂ = l₂ ++ l₃
      rw [List.nil_append] at hd
      rw [List.append_nil] at hc
      cases l₂ with
      | nil =>
        refine Or.inr (Or.inr ⟨[], t₂, ?_, ?_⟩)
        · rw [List.nil_append] at hd
          rw [← hd]
          rfl
        · simp [hc]
      | cons y ys =>
        obtain ⟨hy, ht⟩ := List.cons_eq_cons.mp hd
        refine Or.inr (Or.inl ⟨[], ys, ?_, ?_⟩)
        · rw [← hy]
          rfl
        · rw [hc, List.append_nil]
    | cons x xs =>
      obtain ⟨hx, ht⟩ := List.cons_eq_cons.mp hd
      exact Or.inl ⟨xs, by rw [hc, ← hx]⟩

/-- The invariant maintained by the streaming loop: the cursor equals
the number of appended segments, appended indices (in the state and in
the trace) are exactly `0, …, next-1` in order, a chunk is in the map
exactly when its `arrived` event is in the trace, parsed segments come
from `adjustSegmentOffsets`, nothing is appended before the header
parses, and every `appended` event is preceded by the `arrived` events
of all chunks covering that segment. -/
structure SInv (csz : Nat) (st : StreamSt) : Prop where
  len : st.next = st.appended.length
  idx : st.appended.map Prod.fst = List.range' 0 st.next
  evIdx : appendedIdxs st.trace = List.range' 0 st.next
  arr : ∀ i, ((st.map i).isSome = true) ↔ VEv.arrived i ∈ st.trace
  shape : ∀ hl segs, st.parsed = some (hl, segs) →
    ∃ raw, segs = adjustSegmentOffsets csz hl raw
  noparse : st.parsed = none → st.next = 0
  safe : ∀ tr₁ i tr₂, st.trace = tr₁ ++ VEv.appended i :: tr₂ →
    ∃ hl segs s, st.parsed = some (hl, segs) ∧ segs[i]? = some s ∧
      ∀ j, s.adjustedChunkStart ≤ j → j < s.adjustedChunkEnd → VEv.arrived j ∈ tr₁

theorem isSegmentComplete_mem (M : ChunkMap) (s : AdjSeg) (hc : isSegmentComplete M s = true)
    (j : Nat) (h1 : s.adjustedChunkStart ≤ j) (h2 : j < s.adjustedChunkEnd) :
    (M j).isSome = true := by
  unfold isSegmentComplete at hc
  rw [List.all_eq_true] at hc
  exact hc j (by rw [List.mem_range'_1]; omega)

/-- Core invariant-extension step: the new state records the arrival
events `E` updating the map to `M`, resolves the parsed header
monotonically (to `adjustSegmentOffsets`-shaped segments), and appends
the output of `appendLoop` from the cursor — nothing while the header is
unparsed.  Both `streamBatchStep` and the final drain loop are instances. -/
theorem SInv_extend (csz : Nat) (st : StreamSt) (h : SInv csz st)
    (M : ChunkMap) (E : List VEv)
    (hM : ∀ i, ((M i).isSome = true) ↔ ((st.map i).isSome = true ∨ VEv.arrived i ∈ E))
    (hE : ∀ e ∈ E, ∃ i, e = VEv.arrived i)
    (parsed' : Option (Nat × List AdjSeg))
    (hmono : ∀ p, st.parsed = some p → parsed' = some p)
    (hshape' : ∀ hl segs, parsed' = some (hl, segs) →
      ∃ raw, segs = adjustSegmentOffsets csz hl raw)
    (A : List (Nat × Bytes) × List VEv)
    (hAn : parsed' = none → A = (([] : List (Nat × Bytes)), ([] : List VEv)))
    (hAs : ∀ hl segs, parsed' = some (hl, segs) →
      A = appendLoop M csz hl segs st.next segs.length) :
    SInv csz ⟨M, parsed', st.next + A.1.length, st.appended ++ A.1,
      st.trace ++ E ++ A.2⟩ := by
  have hA1 : A.1.map Prod.fst = List.range' st.next A.1.length := by
    cases hp : parsed' with
    | none =>
      rw [hAn hp]
      rfl
    | some p =>
      rw [hAs p.1 p.2 (by rw [hp])]
      exact (appendLoop_spec M csz p.1 p.2 p.2.length st.next).1
  have hA2 : A.2 = A.1.map (fun p => VEv.appended p.1) := by
    cases hp : parsed' with
    | none =>
      rw [hAn hp]
      rfl
    | some p =>
      rw [hAs p.1 p.2 (by rw [hp])]
      exact (appendLoop_spec M csz p.1 p.2 p.2.length st.next).2.1
  have hA3 : ∀ p ∈ A.1, ∃ hl segs s, parsed' = some (hl, segs) ∧
      segs[p.1]? = some s ∧ isSegmentComplete M s = true := by
    cases hp : parsed' with
    | none =>
      rw [hAn hp]
      intro p hp'
      simp at hp'
    | some q =>
      rw [hAs q.1 q.2 (by rw [hp])]
      intro p hp'
      obtain ⟨s, hs1, hs2, _⟩ :=
        (appendLoop_spec M csz q.1 q.2 q.2.length st.next).2.2 p hp'
      exact ⟨q.1, q.2, s, rfl, hs1, hs2⟩
  refine ⟨?_, ?_, ?_, ?_, ?_, ?_, ?_⟩
  · show st.next + A.1.length = (st.appended ++ A.1).length
    rw [List.length_append, h.len]
  · show (st.appended ++ A.1).map Prod.fst = List.range' 0 (st.next + A.1.length)
    rw [List.map_append, h.idx, hA1]
    have hap := List.range'_append_1 0 st.next A.1.length
    rw [Nat.zero_add] at hap
    rw [hap, Nat.add_comm]
  · show appendedIdxs (st.trace ++ E ++ A.2) = List.range' 0 (st.next + A.1.length)
    rw [appendedIdxs_append, appendedIdxs_append, h.evIdx,
      appendedIdxs_arrived_only E hE, hA2, appendedIdxs_map_appended, hA1,
      List.append_nil]
    have hap := List.range'_append_1 0 st.next A.1.length
    rw [Nat.zero_add] at hap
    rw [hap, Nat.add_comm]
  · intro i
    show (M i).isSome = true ↔ VEv.arrived i ∈ st.trace ++ E ++ A.2
    rw [hM i, h.arr i]
    simp only [List.mem_append]
    constructor
    · rintro (h1 | h2)
      · exact Or.inl (Or.inl h1)
      · exact Or.inl (Or.inr h2)
    · rintro ((h1 | h2) | h3)
      · exact Or.inl h1
      · exact Or.inr h2
      · exact absurd (hA2 ▸ h3) (arrived_not_mem_map_appended i A.1)
  · exact hshape'
  · intro hp
    have hp' : parsed' = none := hp
    show st.next + A.1.length = 0
    have hsp : st.parsed = none := by
      cases hsp : st.parsed with
      | none => rfl
      | some p =>
        exact absurd (hmono p hsp) (by rw [hp']; exact fun hx => Option.noConfusion hx)
    rw [hAn hp', h.noparse hsp]
    rfl
  · intro tr₁ i tr₂ htr
    replace htr : st.trace ++ E ++ A.2 = tr₁ ++ VEv.appended i :: tr₂ := htr
    rcases mem_split_three st.trace E A.2 tr₁ tr₂ (VEv.appended i) htr with
      ⟨u, hu⟩ | ⟨u, v, huv, ht⟩ | ⟨u, v, huv, ht⟩
    · obtain ⟨hl, segs, s, hps, hseg, harr⟩ := h.safe tr₁ i u hu
      exact ⟨hl, segs, s, hmono _ hps, hseg, harr⟩
    · have hmem : VEv.appended i ∈ E := by
        rw [huv]
        simp
      obtain ⟨j, hj⟩ := hE _ hmem
      exact VEv.noConfusion hj
    · have hmem : VEv.appended i ∈ A.2 := by
        rw [huv]
        simp
      rw [hA2] at hmem
      rw [List.mem_map] at hmem
      obtain ⟨p, hpA, hpe⟩ := hmem
      have hpi : p.1 = i := VEv.appended.inj hpe
      obtain ⟨hl, segs, s, hps', hseg, hcomp⟩ := hA3 p hpA
      refine ⟨hl, segs, s, hps', by rw [← hpi]; exact hseg, ?_⟩
      intro j hj1 hj2
      have hjs : (M j).isSome = true := isSegmentComplete_mem M s hcomp j hj1 hj2
      rw [hM j] at hjs
      rw [ht]
      rcases hjs with hjs | hjs
      · rw [h.arr j] at hjs
        simp [List.mem_append, hjs]
      · simp [List.mem_append, hjs]

/-- One batch iteration preserves the streaming invariant. -/
theorem streamBatchStep_inv (env : Env) (um : Bool) (csz : Nat)
    (jp : Bytes → Option (List Seg)) (occ start : Nat) (batch : List Bytes)
    (st : StreamSt) (h : SInv csz st) :
    SInv csz (streamBatchStep env um csz jp occ start batch st) := by
  have hss := storeResults_spec (fetchChunksBatchV env um occ 2 batch).1 st.map start
  refine SInv_extend csz st h _ _ hss.1 hss.2 _ ?_ ?_ _ ?_ ?_
  · intro p hp
    rw [hp]
  · intro hl segs hps
    cases hsp : st.parsed with
    | some p =>
      rw [hsp] at hps
      have hps' : some p = some (hl, segs) := hps
      exact h.shape hl segs (hsp.trans hps')
    | none =>
      rw [hsp] at hps
      have hps' : (match parseHeaderFromChunks
          (storeResults st.map start (fetchChunksBatchV env um occ 2 batch).1).1 csz jp with
        | some (hl, segs) => some (hl, adjustSegmentOffsets csz hl segs)
        | none => none) = some (hl, segs) := hps
      cases hph : parseHeaderFromChunks
          (storeResults st.map start (fetchChunksBatchV env um occ 2 batch).1).1 csz jp with
      | none =>
        rw [hph] at hps'
        exact Option.noConfusion hps'
      | some q =>
        rw [hph] at hps'
        have hps'' : some (q.1, adjustSegmentOffsets csz q.1 q.2) = some (hl, segs) := hps'
        have hpair := Option.some.inj hps''
        have h1 : q.1 = hl := congrArg Prod.fst hpair
        have h2 : adjustSegmentOffsets csz q.1 q.2 = segs := congrArg Prod.snd hpair
        exact ⟨q.2, by rw [← h2, h1]⟩
  · intro hp
    rw [hp]
  · intro hl segs hps
    rw [hps]

/-- The whole batch loop preserves the streaming invariant. -/
theorem streamBatches_inv (env : Env) (um : Bool) (csz : Nat)
    (jp : Bytes → Option (List Seg)) (bss : List (List Bytes)) :
    ∀ (occ start : Nat) (st : StreamSt), SInv csz st →
      SInv csz (streamBatches env um csz jp bss occ start st) := by
  induction bss with
  | nil => intro occ start st h; exact h
  | cons b bs ih =>
    intro occ start st h
    exact ih (occ + 1) (start + b.length)
      (streamBatchStep env um csz jp occ start b st)
      (streamBatchStep_inv env um csz jp occ start b st h)

/-- The empty initial state satisfies the invariant. -/
theorem SInv_init (csz : Nat) :
    SInv csz ⟨fun _ => none, none, 0, [], []⟩ := by
  refine ⟨rfl, rfl, rfl, ?_, ?_, ?_, ?_⟩
  · intro i
    simp
  · intro hl segs hp
    exact Option.noConfusion hp
  · intro _
    rfl
  · intro tr₁ i tr₂ htr
    have : ([] : List VEv) = tr₁ ++ VEv.appended i :: tr₂ := htr
    simp at this

/-- Any successful run of `streamVideoWithSegments` satisfies the
streaming invariant. -/
theorem streamVideo_inv (env : Env) (um : Bool) (bs csz : Nat)
    (jp : Bytes → Option (List Seg)) (sf : Bool) (root : Bytes) (d : Nat)
    (st : StreamSt)
    (h : streamVideoWithSegments env um bs csz jp sf root d = .ok st) :
    SInv csz st := by
  unfold streamVideoWithSegments at h
  cases hc : collectLeafAddressesV env root d with
  | error e =>
    rw [hc] at h
    exact Except.noConfusion h
  | ok leaves =>
    rw [hc] at h
    cases hsf : sf with
    | true =>
      rw [hsf] at h
      simp at h
    | false =>
      rw [hsf] at h
      simp only [Bool.false_eq_true, if_false] at h
      have hst := Except.ok.inj h
      subst hst
      set st1 := streamBatches env um csz jp (chunkList bs leaves) 0 0
        ⟨fun _ => none, none, 0, [], []⟩ with hst1
      have h1 : SInv csz st1 :=
        streamBatches_inv env um csz jp (chunkList bs leaves) 0 0 _ (SInv_init csz)
      have h2 := SInv_extend csz st1 h1 st1.map [] (fun i => by simp)
        (fun e he => absurd he (List.not_mem_nil e))
        st1.parsed (fun p hp => hp) h1.shape
        (match st1.parsed with
          | none => (([] : List (Nat × Bytes)), ([] : List VEv))
          | some (hl, segs) => appendLoop st1.map csz hl segs st1.next segs.length)
        (fun hp => by rw [hp]) (fun hl segs hps => by rw [hps])
      have hEq : st1.trace ++ [] ++ (match st1.parsed with
          | none => (([] : List (Nat × Bytes)), ([] : List VEv))
          | some (hl, segs) => appendLoop st1.map csz hl segs st1.next segs.length).2
          = st1.trace ++ (match st1.parsed with
          | none => (([] : List (Nat × Bytes)), ([] : List VEv))
          | some (hl, segs) => appendLoop st1.map csz hl segs st1.next segs.length).2 := by
        rw [List.append_nil]
      rw [hEq] at h2
      exact h2

/-- Every segment produced by `adjustSegmentOffsets` carries the
absolute byte range `[byteStart + 4 + hl, byteEnd + 4 + hl)` and the
covering chunk range `[floor(adjStart / csz), ceil(adjEnd / csz))`. -/
theorem adjustSegmentOffsets_mem (csz hl : Nat) (raw : List Seg) (s : AdjSeg)
    (hs : s ∈ adjustSegmentOffsets csz hl raw) :
    s.adjustedByteStart = s.byteStart + (4 + hl) ∧
    s.adjustedByteEnd = s.byteEnd + (4 + hl) ∧
    s.adjustedChunkStart = (s.byteStart + (4 + hl)) / csz ∧
    s.adjustedChunkEnd = (s.byteEnd + (4 + hl) + csz - 1) / csz := by
  unfold adjustSegmentOffsets at hs
  rw [List.mem_map] at hs
  obtain ⟨s₀, _, rfl⟩ := hs
  exact ⟨rfl, rfl, rfl, rfl⟩

end Video

/-- C9 witness: with chunk size 4, header length 2 and assembled content
`[0,0,0,2,123,125,9,7,8,9,10]`, the segment with relative range `[0, 1)`
extracts exactly byte offset 6 of the content, the byte `9`. -/
theorem extractSegmentData_exact_witness :
    Video.extractSegmentData
        (fun i => (chunkList 4 [0, 0, 0, 2, 123, 125, 9, 7, 8, 9, 10])[i]?) 4 2
        ⟨0, 1, 6, 7, 1, 2⟩
      = (([0, 0, 0, 2, 123, 125, 9, 7, 8, 9, 10] : Bytes).drop (0 + (4 + 2))).take (1 - 0) :=
  extractSegmentData_exact [0, 0, 0, 2, 123, 125, 9, 7, 8, 9, 10] 4 2 ⟨0, 1, 6, 7, 1, 2⟩
    (fun i => (chunkList 4 [0, 0, 0, 2, 123, 125, 9, 7, 8, 9, 10])[i]?)
    (by decide) (fun i _ _ => rfl) (by decide) (by decide) (by decide) (by decide)

/-- C7: in the streaming variant, segments are released strictly in
ascending index order and exactly once each (the appended indices, both
in the final state and among the trace's `appended` events, are exactly
`0, …, n-1` in order); every parsed segment's covering chunk range is
the floor/ceil chunk cover of its absolute byte range, obtained by
adding the header prefix size `4 + headerLength` to the declared
relative `byteStart`/`byteEnd`; and a segment is never released before
the `arrived` events of all chunks covering its absolute byte range:
they precede its `appended` event in the trace. -/
theorem stream_segment_release_order (env : Env) (um : Bool) (bs csz : Nat)
    (jp : Bytes → Option (List Video.Seg)) (sf : Bool) (root : Bytes) (d : Nat)
    (st : Video.StreamSt)
    (h : Video.streamVideoWithSegments env um bs csz jp sf root d = .ok st) :
    (st.appended.map Prod.fst = List.range st.appended.length) ∧
    (Video.appendedIdxs st.trace = List.range st.appended.length) ∧
    (∀ hl segs s, st.parsed = some (hl, segs) → s ∈ segs →
      s.adjustedByteStart = s.byteStart + (4 + hl) ∧
      s.adjustedByteEnd = s.byteEnd + (4 + hl) ∧
      s.adjustedChunkStart = (s.byteStart + (4 + hl)) / csz ∧
      s.adjustedChunkEnd = (s.byteEnd + (4 + hl) + csz - 1) / csz) ∧
    (∀ tr₁ i tr₂, st.trace = tr₁ ++ Video.VEv.appended i :: tr₂ →
      ∃ hl segs s, st.parsed = some (hl, segs) ∧ segs[i]? = some s ∧
        ∀ j, s.adjustedChunkStart ≤ j → j < s.adjustedChunkEnd →
          Video.VEv.arrived j ∈ tr₁) := by
  have hinv := Video.streamVideo_inv env um bs csz jp sf root d st h
  refine ⟨?_, ?_, ?_, hinv.safe⟩
  · rw [hinv.idx, ← hinv.len, List.range_eq_range']
  · rw [hinv.evIdx, ← hinv.len, List.range_eq_range']
  · intro hl segs s hps hs
    obtain ⟨raw, hraw⟩ := hinv.shape hl segs hps
    exact Video.adjustSegmentOffsets_mem csz hl raw s (hraw ▸ hs)

/-- Payloads for a concrete streaming run: a depth-1 tree whose root
lists two leaves; leaf 1 holds a 7-byte chunk whose 4-byte prefix
declares a 2-byte header, leaf 2 a 4-byte chunk. -/
def vPayload : Bytes → Bytes := fun a =>
  if a = wAddr 0 then wAddr 1 ++ wAddr 2
  else if a = wAddr 1 then [0, 0, 0, 2, 123, 125, 9]
  else if a = wAddr 2 then [7, 8, 9, 10]
  else []

def envV : Env := ⟨vPayload, fun _ _ _ => false, fun _ _ => false, fun _ _ => false⟩

/-- A JSON oracle that decodes the 2-byte header `[123, 125]` to a
single segment with relative range `[0, 1)`. -/
def jpV : Bytes → Option (List Video.Seg) := fun b =>
  if b = [123, 125] then some [⟨0, 1⟩] else none

/-- The final state of the concrete streaming run. -/
def wStream : Video.StreamSt :=
  match Video.streamVideoWithSegments envV false 100 4 jpV false (wAddr 0) 1 with
  | .ok st => st
  | .error _ => ⟨fun _ => none, none, 0, [], []⟩

/-- C7 witness: the concrete run appends exactly segment 0 (with data
byte `9`), in order, and its trace's appended indices are `[0]`. -/
theorem stream_segment_release_order_witness :
    wStream.appended.map Prod.fst = List.range wStream.appended.length ∧
    wStream.appended = [(0, [9])] ∧
    Video.appendedIdxs wStream.trace = [0] :=
  ⟨(stream_segment_release_order envV false 100 4 jpV false (wAddr 0) 1 wStream rfl).1,
    rfl, rfl⟩

/-! ## Header-parse failure and the fallback path (video loader) -/

/-- A JSON oracle that always fails, modelling malformed header content. -/
def jpNone : Bytes → Option (List Video.Seg) := fun _ => none

/-- C8 counterexample: with a JSON parser that always fails (malformed
structured content), the streaming load completes normally — `init`
does NOT fall back to whole-buffer treatment: the path is `streamed`
(no fallback), the header is recorded as never parsed, and no segment
was ever appended.  The spec's claimed fallback to non-segmented
treatment does not happen. -/
theorem header_parse_failure_cex :
    (Video.initVideo envV false 100 4 jpNone false true false (wAddr 0) 1).usedFallback
        = false ∧
    (Video.initVideo envV false 100 4 jpNone false true false (wAddr 0) 1).streamedHeader
        = some none ∧
    (Video.initVideo envV false 100 4 jpNone false true false (wAddr 0) 1).streamedSegments
        = [] :=
  ⟨rfl, rfl, rfl⟩

theorem parseHeaderFromChunks_none (m : Video.ChunkMap) (csz : Nat)
    (jp : Bytes → Option (List Video.Seg)) (hjp : ∀ b, jp b = none) :
    Video.parseHeaderFromChunks m csz jp = none := by
  unfold Video.parseHeaderFromChunks
  cases m 0 with
  | none => rfl
  | some c0 =>
    by_cases h4 : c0.length < 4
    · simp [h4]
    · simp only [if_neg h4]
      by_cases hall : (List.range ((4 + Video.readUint32BE c0 + csz - 1) / csz)).all
          (fun i => (m i).isSome) = true
      · simp [hall, hjp]
      · simp [hall]

/-- With an always-failing JSON parser a batch step never resolves the
header, appends nothing and leaves the cursor in place. -/
theorem streamBatchStep_jpNone (env : Env) (um : Bool) (csz : Nat)
    (jp : Bytes → Option (List Video.Seg)) (hjp : ∀ b, jp b = none)
    (occ start : Nat) (batch : List Bytes) (st : Video.StreamSt)
    (hp : st.parsed = none) :
    (Video.streamBatchStep env um csz jp occ start batch st).parsed = none ∧
    (Video.streamBatchStep env um csz jp occ start batch st).next = st.next ∧
    (Video.streamBatchStep env um csz jp occ start batch st).appended = st.appended := by
  have hparse : Video.parseHeaderFromChunks
      (Video.storeResults st.map start (fetchChunksBatchV env um occ 2 batch).1).1 csz jp
      = none := parseHeaderFromChunks_none _ _ _ hjp
  refine ⟨?_, ?_, ?_⟩
  · unfold Video.streamBatchStep
    dsimp only
    rw [hp, hparse]
  · unfold Video.streamBatchStep
    dsimp only
    rw [hp, hparse]
    rfl
  · unfold Video.streamBatchStep
    dsimp only
    rw [hp, hparse]
    simp

/-- The property of the previous lemma propagated through the whole
batch loop. -/
theorem streamBatches_jpNone (env : Env) (um : Bool) (csz : Nat)
    (jp : Bytes → Option (List Video.Seg)) (hjp : ∀ b, jp b = none)
    (bss : List (List Bytes)) :
    ∀ (occ start : Nat) (st : Video.StreamSt), st.parsed = none →
      (Video.streamBatches env um csz jp bss occ start st).parsed = none ∧
      (Video.streamBatches env um csz jp bss occ start st).next = st.next ∧
      (Video.streamBatches env um csz jp bss occ start st).appended = st.appended := by
  induction bss with
  | nil => intro occ start st hp; exact ⟨hp, rfl, rfl⟩
  | cons b bs ih =>
    intro occ start st hp
    obtain ⟨h1, h2, h3⟩ := streamBatchStep_jpNone env um csz jp hjp occ start b st hp
    obtain ⟨g1, g2, g3⟩ := ih (occ + 1) (start + b.length)
      (Video.streamBatchStep env um csz jp occ start b st) h1
    exact ⟨g1, g2.trans h2, g3.trans h3⟩

/-- With an always-failing JSON parser, a streaming run whose discovery
and MediaSource setup succeed completes with `.ok`: the header stays
unparsed and nothing is appended. -/
theorem streamVideo_jpNone_run (env : Env) (um : Bool) (bs csz : Nat)
    (jp : Bytes → Option (List Video.Seg)) (hjp : ∀ b, jp b = none)
    (root : Bytes) (d : Nat) (addrs : List Bytes)
    (hdisc : Video.collectLeafAddressesV env root d = .ok addrs) :
    ∃ st, Video.streamVideoWithSegments env um bs csz jp false root d = .ok st ∧
      st.parsed = none ∧ st.appended = [] := by
  obtain ⟨hp1, hn1, ha1⟩ := streamBatches_jpNone env um csz jp hjp
    (chunkList bs addrs) 0 0 ⟨fun _ => none, none, 0, [], []⟩ rfl
  set st1 := Video.streamBatches env um csz jp (chunkList bs addrs) 0 0
    ⟨fun _ => none, none, 0, [], []⟩ with hst1
  have ha1' : st1.appended = [] := ha1
  have hrun : Video.streamVideoWithSegments env um bs csz jp false root d
      = .ok (⟨st1.map, st1.parsed,
        st1.next + (match st1.parsed with
          | none => (([] : List (Nat × Bytes)), ([] : List Video.VEv))
          | some (hl, segs) =>
            Video.appendLoop st1.map csz hl segs st1.next segs.length).1.length,
        st1.appended ++ (match st1.parsed with
          | none => (([] : List (Nat × Bytes)), ([] : List Video.VEv))
          | some (hl, segs) =>
            Video.appendLoop st1.map csz hl segs st1.next segs.length).1,
        st1.trace ++ (match st1.parsed with
          | none => (([] : List (Nat × Bytes)), ([] : List Video.VEv))
          | some (hl, segs) =>
            Video.appendLoop st1.map csz hl segs st1.next segs.length).2⟩
          : Video.StreamSt) := by
    unfold Video.streamVideoWithSegments
    rw [hdisc]
    rfl
  refine ⟨_, hrun, hp1, ?_⟩
  show st1.appended ++ (match st1.parsed with
      | none => (([] : List (Nat × Bytes)), ([] : List Video.VEv))
      | some (hl, segs) =>
        Video.appendLoop st1.map csz hl segs st1.next segs.length).1 = []
  rw [hp1, ha1']
  simp

/-- C8 (amended): a header-parse failure does NOT make the caller fall
back.  With a JSON parser that always fails and a successful discovery,
the streaming path completes normally: `init` keeps the `streamed` path
(no fallback), records the header as never parsed and appends no
segment.  `fallbackLoad` (whole-buffer treatment) runs exactly in the
three cases that bypass or abort streaming itself: forced raw mode, an
unsupported MediaSource, and a streaming error (here MediaSource setup
failure) — never because of a header-parse failure. -/
theorem header_parse_failure_no_fallback (env : Env) (um : Bool) (bs csz : Nat)
    (jp : Bytes → Option (List Video.Seg)) (root : Bytes) (d : Nat) (addrs : List Bytes)
    (hjp : ∀ b, jp b = none)
    (hdisc : Video.collectLeafAddressesV env root d = .ok addrs) :
    ((Video.initVideo env um bs csz jp false true false root d).usedFallback = false) ∧
    ((Video.initVideo env um bs csz jp false true false root d).streamedHeader
        = some none) ∧
    ((Video.initVideo env um bs csz jp false true false root d).streamedSegments = []) ∧
    (∀ sf, (Video.initVideo env um bs csz jp true true sf root d).usedFallback = true) ∧
    (∀ sf, (Video.initVideo env um bs csz jp false false sf root d).usedFallback = true) ∧
    ((Video.initVideo env um bs csz jp false true true root d).usedFallback = true) := by
  obtain ⟨st, hst, hp, ha⟩ := streamVideo_jpNone_run env um bs csz jp hjp root d addrs hdisc
  have hiv : Video.initVideo env um bs csz jp false true false root d = .streamed st := by
    unfold Video.initVideo
    rw [hst]
    rfl
  have hsv : Video.streamVideoWithSegments env um bs csz jp true root d
      = .error "MediaSource setup failed" := by
    unfold Video.streamVideoWithSegments
    rw [hdisc]
    rfl
  have hiv2 : Video.initVideo env um bs csz jp false true true root d
      = .streamFailedFallback (Video.fallbackLoad env um bs root d) := by
    unfold Video.initVideo
    rw [hsv]
    rfl
  refine ⟨?_, ?_, ?_, ?_, ?_, ?_⟩
  · rw [hiv]
    rfl
  · rw [hiv]
    show some (st.parsed.map Prod.fst) = some none
    rw [hp]
    rfl
  · rw [hiv]
    exact ha
  · intro sf
    rfl
  · intro sf
    rfl
  · rw [hiv2]
    rfl

/-- C8 witness for the amended claim: on the concrete tree with the
always-failing parser, the streamed path is kept (`usedFallback =
false`), while forced raw mode and a MediaSource setup failure do fall
back. -/
theorem header_parse_failure_no_fallback_witness :
    (Video.initVideo envV false 100 4 jpNone false true false (wAddr 0) 1).usedFallback
        = false ∧
    (Video.initVideo envV false 100 4 jpNone true true false (wAddr 0) 1).usedFallback
        = true ∧
    (Video.initVideo envV false 100 4 jpNone false true true (wAddr 0) 1).usedFallback
        = true := by
  have h := header_parse_failure_no_fallback envV false 100 4 jpNone (wAddr 0) 1
    [wAddr 1, wAddr 2] (fun b => rfl) rfl
  exact ⟨h.1, h.2.2.2.1 false, h.2.2.2.2.2⟩

end Warren
